import Mathlib

/-!
Verification development for the mitmproxy capture pipeline
(addons: scribe_logger.py, langfuse_logger.py, quota_logger.py, buffer_logger.py).

Text is modelled as `List Char`. Python string primitives (`str.strip`,
`str.find`, `str.rfind`, `str.startswith`, slicing) are embedded below;
`re.sub(r'<tag>.*?</tag>', '', s, flags=re.DOTALL)` is embedded as a
leftmost shortest-match scan, and `re.sub(r'\n\x7b3,\x7d', '\n\n', s)` as a
newline-run rewrite.  JSON documents that the addons inspect with `.get`
chains are modelled by the inductive `Json`; Python `None` is `Json.null`,
and calling `.get` on a non-dict value (an `AttributeError` in Python) is
modelled as `Except.error ()`.
-/

set_option maxRecDepth 8000

/-- Python whitespace for `str.strip()` (ASCII range, which is all the
addons encounter): space, tab, newline, carriage return, vertical tab,
form feed. -/
def pyIsSpace (c : Char) : Bool :=
  c = ' ' || c = '\t' || c = '\n' || c = '\r' || c = '\x0b' || c = '\x0c'

/-- Python `s.startswith(pat)` on the character-list model. -/
def pyStartsWith : List Char → List Char → Bool
  | _, [] => true
  | [], _ :: _ => false
  | c :: cs, p :: ps => p == c && pyStartsWith cs ps

/-- Left strip: drop leading whitespace. -/
def lstrip (s : List Char) : List Char := s.dropWhile pyIsSpace

/-- Right strip: drop trailing whitespace. -/
def rstrip (s : List Char) : List Char := (lstrip s.reverse).reverse

/-- Python `s.strip()`. -/
def pyStrip (s : List Char) : List Char := rstrip (lstrip s)

/-- All indices at which `pat` occurs in `s`, in increasing order. -/
def occs (pat s : List Char) : List Nat :=
  (List.range (s.length + 1)).filter (fun i => pyStartsWith (s.drop i) pat)

/-- Python `s.find(pat)`: index of the first occurrence (`none` for -1). -/
def findIdx (pat s : List Char) : Option Nat := (occs pat s).head?

/-- Python `s.rfind(pat)`: index of the last occurrence (`none` for -1). -/
def rfindIdx (pat s : List Char) : Option Nat := (occs pat s).getLast?

/-- `pat` occurs nowhere in `s` (pointwise form used in proofs). -/
def noOccP (pat s : List Char) : Prop :=
  ∀ i : Nat, pyStartsWith (s.drop i) pat = false

/-- A run of `k` newlines after the `\n\x7b3,\x7d → \n\n` rewrite. -/
def nlRun (k : Nat) : List Char := List.replicate (if 3 ≤ k then 2 else k) '\n'

/-- Scanner for `re.sub(r'\n\x7b3,\x7d', '\n\n', s)`: `k` counts the newline run
currently open to the left of the cursor. -/
def collapseAux : Nat → List Char → List Char
  | k, [] => nlRun k
  | k, c :: rest =>
    if c = '\n' then collapseAux (k + 1) rest else nlRun k ++ c :: collapseAux 0 rest

/-- `re.sub(r'\n\x7b3,\x7d', '\n\n', s)`: collapse runs of three or more
newlines to exactly two. -/
def collapseNewlines (s : List Char) : List Char := collapseAux 0 s

/-- One scan step of `re.sub(rf'<tag>.*?</tag>', '', s, flags=re.DOTALL)`:
at each position, a match starts iff the opening marker is here and the
closing marker occurs at or after the end of the opening marker; the lazy
`.*?` takes the earliest such closing marker.  Fuel is the remaining
length, consumed one unit per step. -/
def reSubAux (openT closeT : List Char) : Nat → List Char → List Char
  | _, [] => []
  | 0, s => s
  | fuel + 1, c :: rest =>
    if pyStartsWith (c :: rest) openT then
      match findIdx closeT ((c :: rest).drop openT.length) with
      | some j => reSubAux openT closeT fuel ((c :: rest).drop (openT.length + j + closeT.length))
      | none => c :: reSubAux openT closeT fuel rest
    else c :: reSubAux openT closeT fuel rest

/-- `re.sub(rf'<tag>.*?</tag>', '', s, flags=re.DOTALL)`. -/
def reSubTag (openT closeT s : List Char) : List Char :=
  reSubAux openT closeT s.length s

/-- `ScribeLogger.NOISE_TAGS`, in the declared order. -/
def NOISE_TAGS : List (List Char) :=
  ["system-reminder".toList, "ide_opened_file".toList, "ide_selection".toList,
   "command-name".toList, "command-message".toList, "command-args".toList,
   "local-command-stdout".toList]

/-- The opening marker `<tag>`. -/
def openTag (tag : List Char) : List Char := '<' :: (tag ++ ['>'])

/-- The closing marker `</tag>`. -/
def closeTag (tag : List Char) : List Char := '<' :: '/' :: (tag ++ ['>'])

/-- One iteration of the `for tag in self.NOISE_TAGS` loop of
`ScribeLogger._strip_noise_tags` (scribe_logger.py lines 135-163):
find the first opening and last closing marker (skip the tag if either is
absent), drop the span between them, strip the prefix and suffix, run the
straggler `re.sub` pass over the suffix only, and rejoin. -/
def strip_tag_pass (result : List Char) (tag : List Char) : List Char :=
  match findIdx (openTag tag) result with
  | none => result
  | some firstOpen =>
    match rfindIdx (closeTag tag) result with
    | none => result
    | some lastClose =>
      let endClose := lastClose + (closeTag tag).length
      let before := pyStrip (result.take firstOpen)
      let after := reSubTag (openTag tag) (closeTag tag) (pyStrip (result.drop endClose))
      if !before.isEmpty && !after.isEmpty then before ++ '\n' :: '\n' :: after
      else if !before.isEmpty then before
      else after

/-- `ScribeLogger._strip_noise_tags` (scribe_logger.py lines 127-168):
the per-tag loop over `NOISE_TAGS`, then
`re.sub(r'\n\x7b3,\x7d', '\n\n', result).strip()`. -/
def strip_noise_tags (text : List Char) : List Char :=
  pyStrip (collapseNewlines (NOISE_TAGS.foldl strip_tag_pass text))

/-- Both the opening and the closing marker of `tag` occur in `text`. -/
def bothMarkers (tag text : List Char) : Bool :=
  (findIdx (openTag tag) text).isSome && (rfindIdx (closeTag tag) text).isSome

/-- C4's description of one per-tag pass, written from the claim's words:
when both markers occur, remove everything from the first occurrence of
the opening marker through the end of the last occurrence of the closing
marker, keep the prefix and suffix each trimmed of surrounding
whitespace, run a second pass removing complete spans from the suffix
only, and join with a blank line when both survive (otherwise keep
whichever is non-empty, or empty); otherwise leave the text unchanged. -/
def strip_tag_claim (result : List Char) (tag : List Char) : List Char :=
  match (occs (openTag tag) result).head? with
  | none => result
  | some firstOpen =>
    match (occs (closeTag tag) result).getLast? with
    | none => result
    | some lastClose =>
      let prefixPart := pyStrip (result.take firstOpen)
      let suffixPart :=
        reSubTag (openTag tag) (closeTag tag)
          (pyStrip (result.drop (lastClose + (closeTag tag).length)))
      if !prefixPart.isEmpty && !suffixPart.isEmpty then
        prefixPart ++ '\n' :: '\n' :: suffixPart
      else if !prefixPart.isEmpty then prefixPart
      else suffixPart

/-- C4's description of the whole filter, written from the claim's words:
the per-tag procedure applied once per configured tag in the declared
order over the cumulative result, then a final normalization collapsing
three or more consecutive newlines to exactly two. -/
def strip_claim (text : List Char) : List Char :=
  collapseNewlines (NOISE_TAGS.foldl strip_tag_claim text)

/-- `s` carries no surrounding whitespace (`s.strip()` is the identity). -/
def StrippedP (s : List Char) : Prop := pyStrip s = s

/-- JSON values as the addons see them after `json.loads`.  Python `None`
is `Json.null`; numbers are carried as integers (the addons only move
token counts around and never do float arithmetic on JSON numbers). -/
inductive Json where
  | null
  | bool (b : Bool)
  | num (n : Int)
  | str (s : List Char)
  | arr (items : List Json)
  | obj (entries : List (List Char × Json))

/-- `d.get(key, dflt)` on a dict value: first matching entry (a dict
produced by `json.loads` has unique keys). -/
def objGetD (entries : List (List Char × Json)) (key : List Char) (dflt : Json) : Json :=
  match entries.find? (fun kv => kv.1 == key) with
  | some kv => kv.2
  | none => dflt

/-- Python `j == "lit"` for a JSON value: true exactly on equal strings. -/
def Json.eqStr : Json → List Char → Bool
  | .str s, t => s == t
  | _, _ => false

/-- Python truthiness of a JSON value. -/
def Json.truthy : Json → Bool
  | .null => false
  | .bool b => b
  | .num n => n != 0
  | .str s => !s.isEmpty
  | .arr l => !l.isEmpty
  | .obj l => !l.isEmpty

/-- Whether the value is a dict (so `.get` will not raise). -/
def Json.isObj : Json → Bool
  | .obj _ => true
  | _ => false

/-- The JSON keys and type literals the addons consult, as character
lists.  Named constants keep proof terms stable. -/
def kwType : List Char := "type".toList

/-- Key `text`. -/
def kwText : List Char := "text".toList

/-- Key `delta`. -/
def kwDelta : List Char := "delta".toList

/-- Event type `content_block_delta`. -/
def kwCbd : List Char := "content_block_delta".toList

/-- Delta type `text_delta`. -/
def kwTextDelta : List Char := "text_delta".toList

/-- Event type `message_delta`. -/
def kwMsgDelta : List Char := "message_delta".toList

/-- Event type `message_start`. -/
def kwMsgStart : List Char := "message_start".toList

/-- Key `message`. -/
def kwMessage : List Char := "message".toList

/-- Key `usage`. -/
def kwUsage : List Char := "usage".toList

/-- Key `output_tokens`. -/
def kwOutputTokens : List Char := "output_tokens".toList

/-- Key `input_tokens`. -/
def kwInputTokens : List Char := "input_tokens".toList

/-- Key `cache_creation_input_tokens`. -/
def kwCacheCreation : List Char := "cache_creation_input_tokens".toList

/-- Key `cache_read_input_tokens`. -/
def kwCacheRead : List Char := "cache_read_input_tokens".toList

/-- Key `content`. -/
def kwContent : List Char := "content".toList

/-- Key `id`. -/
def kwId : List Char := "id".toList

/-- Key `role`. -/
def kwRole : List Char := "role".toList

/-- Role `user`. -/
def kwUser : List Char := "user".toList

/-- `ScribeLogger._is_system_noise` (scribe_logger.py lines 88-114):
exact noise literals, noise prefixes, and the short-message heuristic. -/
def is_system_noise (t : List Char) : Bool :=
  (t == "Stop hook feedback:".toList)
  || pyStartsWith t "Command: ".toList
  || pyStartsWith t "<policy_spec>".toList
  || pyStartsWith t "<is_displaying_contents>".toList
  || (t.length < 10 && !(t.any (fun c => c = '?' || c = '!' || c = '.')))

/-- Text contributed by one content block in
`ScribeLogger._extract_text_from_content` (scribe_logger.py lines
176-184): a dict block contributes its `text` field when its `type` is
`"text"` (a non-string `text` value later makes `"".join` raise, modelled
as `error`); a bare string block contributes itself; anything else is
skipped silently. -/
def blockTextScribe (b : Json) : Except Unit (List Char) :=
  match b with
  | .obj bk =>
    if (objGetD bk kwType (Json.str [])).eqStr kwText then
      match objGetD bk kwText (Json.str []) with
      | .str s => .ok s
      | _ => .error ()
    else .ok []
  | .str s => .ok s
  | _ => .ok []

/-- The `texts` accumulation loop plus `"".join(texts)` of
`_extract_text_from_content`. -/
def joinBlocksScribe : List Char → List Json → Except Unit (List Char)
  | acc, [] => .ok acc
  | acc, b :: bs =>
    match blockTextScribe b with
    | .ok t => joinBlocksScribe (acc ++ t) bs
    | .error e => .error e

/-- `ScribeLogger._extract_text_from_content` (scribe_logger.py lines
170-187): strings are noise-stripped directly, lists are joined and then
noise-stripped once, anything else extracts to the empty string. -/
def extract_text_from_content (content : Json) : Except Unit (List Char) :=
  match content with
  | .str s => .ok (strip_noise_tags s)
  | .arr blocks =>
    match joinBlocksScribe [] blocks with
    | .ok raw => .ok (strip_noise_tags raw)
    | .error e => .error e
  | _ => .ok []

/-- One line of an SSE body, classified the way both SSE parsers observe
it: a line without the `data: ` prefix, the `data: [DONE]` sentinel
(scribe skips it explicitly; in langfuse `json.loads("[DONE]")` raises
`JSONDecodeError`, since `[DONE]` is not valid JSON, and is skipped), a
data line whose payload fails JSON parsing, or a data line whose payload
parses to `j`. -/
inductive SSELine where
  | notData
  | doneLine
  | badJson
  | jsonLine (j : Json)

/-- Processing of one parsed event by `ScribeLogger._parse_sse_response`
(scribe_logger.py lines 205-221): only `content_block_delta` with delta
type `text_delta` appends text.  `event.get` on a non-dict event and
`delta.get` on a non-dict delta raise `AttributeError`, which the inner
`except json.JSONDecodeError` does not catch; a non-string `text` value
makes the final `"".join` raise.  All of these abort the parse and are
modelled as `error`. -/
def scribeProcessObj (acc : List Char) (kvs : List (List Char × Json)) :
    Except Unit (List Char) :=
  if (objGetD kvs kwType (Json.str [])).eqStr kwCbd then
    match objGetD kvs kwDelta (Json.obj []) with
    | .obj dk =>
      if (objGetD dk kwType Json.null).eqStr kwTextDelta then
        match objGetD dk kwText (Json.str []) with
        | .str s => .ok (acc ++ s)
        | _ => .error ()
      else .ok acc
    | _ => .error ()
  else .ok acc

/-- One line step of `ScribeLogger._parse_sse_response`. -/
def scribeStep (acc : List Char) : SSELine → Except Unit (List Char)
  | .notData => .ok acc
  | .doneLine => .ok acc
  | .badJson => .ok acc
  | .jsonLine j =>
    match j with
    | .obj kvs => scribeProcessObj acc kvs
    | _ => .error ()

/-- The line loop of `ScribeLogger._parse_sse_response`. -/
def scribeParseGo (acc : List Char) : List SSELine → Except Unit (List Char)
  | [] => .ok acc
  | l :: ls =>
    match scribeStep acc l with
    | .ok acc2 => scribeParseGo acc2 ls
    | .error e => .error e

/-- `ScribeLogger._parse_sse_response` (scribe_logger.py lines 189-222)
over the classified lines of the body. -/
def parse_sse_response (lines : List SSELine) : Except Unit (List Char) :=
  scribeParseGo [] lines

/-- The `usage` dict accumulated by langfuse's `parse_sse_stream`.  A
field is `none` while its key is absent and `some v` once set — `v` may
be `Json.null`, matching a key stored with value `None`. -/
structure LfUsage where
  input_tokens : Option Json
  cache_creation_input_tokens : Option Json
  cache_read_input_tokens : Option Json
  output_tokens : Option Json

/-- The empty usage dict. -/
def emptyUsage : LfUsage := ⟨none, none, none, none⟩

/-- Processing of one parsed event by langfuse's `parse_sse_stream`
(langfuse_logger.py lines 87-111): `content_block_delta` appends text,
`message_delta` with truthy `usage` sets `output_tokens` (possibly to
`None`), `message_start` with truthy `message.usage` sets the input and
cache fields (possibly to `None`).  `.get` on a non-dict raises
`AttributeError`, uncaught by `except json.JSONDecodeError`; a
non-string text delta makes `''.join` raise.  Both abort the parse and
are modelled as `error`. -/
def lfProcessObj (st : List Char × Option LfUsage) (kvs : List (List Char × Json)) :
    Except Unit (List Char × Option LfUsage) :=
  let t := objGetD kvs kwType Json.null
  if t.eqStr kwCbd then
    match objGetD kvs kwDelta (Json.obj []) with
    | .obj dk =>
      if (objGetD dk kwType Json.null).eqStr kwTextDelta then
        match objGetD dk kwText (Json.str []) with
        | .str s => .ok (st.1 ++ s, st.2)
        | _ => .error ()
      else .ok st
    | _ => .error ()
  else if t.eqStr kwMsgDelta then
    match objGetD kvs kwUsage (Json.obj []) with
    | .obj uk =>
      if (Json.obj uk).truthy then
        let u := st.2.getD emptyUsage
        .ok (st.1, some ⟨u.input_tokens, u.cache_creation_input_tokens,
                         u.cache_read_input_tokens,
                         some (objGetD uk kwOutputTokens Json.null)⟩)
      else .ok st
    | du => if du.truthy then .error () else .ok st
  else if t.eqStr kwMsgStart then
    match objGetD kvs kwMessage (Json.obj []) with
    | .obj mk =>
      match objGetD mk kwUsage (Json.obj []) with
      | .obj muk =>
        if (Json.obj muk).truthy then
          let u := st.2.getD emptyUsage
          .ok (st.1, some ⟨some (objGetD muk kwInputTokens Json.null),
                           some (objGetD muk kwCacheCreation Json.null),
                           some (objGetD muk kwCacheRead Json.null),
                           u.output_tokens⟩)
        else .ok st
      | mu => if mu.truthy then .error () else .ok st
    | _ => .error ()
  else .ok st

/-- One line step of langfuse's `parse_sse_stream`. -/
def lfStep (st : List Char × Option LfUsage) : SSELine → Except Unit (List Char × Option LfUsage)
  | .notData => .ok st
  | .doneLine => .ok st
  | .badJson => .ok st
  | .jsonLine j =>
    match j with
    | .obj kvs => lfProcessObj st kvs
    | _ => .error ()

/-- The line loop of langfuse's `parse_sse_stream`. -/
def lfParseGo (st : List Char × Option LfUsage) :
    List SSELine → Except Unit (List Char × Option LfUsage)
  | [] => .ok st
  | l :: ls =>
    match lfStep st l with
    | .ok st2 => lfParseGo st2 ls
    | .error e => .error e

/-- `parse_sse_stream` (langfuse_logger.py lines 71-116) over the
classified lines of the body; returns the joined text and the usage
dict (`none` when no usage event fired). -/
def parse_sse_stream (lines : List SSELine) : Except Unit (List Char × Option LfUsage) :=
  lfParseGo ([], none) lines

/-- C1's claim-side text of one line: the `delta.text` value of a `data:`
line that parses as JSON with type `content_block_delta` and delta type
`text_delta`; every other line contributes nothing. -/
def lineClaimText : SSELine → List Char
  | .jsonLine (.obj kvs) =>
    if (objGetD kvs kwType Json.null).eqStr kwCbd then
      match objGetD kvs kwDelta (Json.obj []) with
      | .obj dk =>
        if (objGetD dk kwType Json.null).eqStr kwTextDelta then
          match objGetD dk kwText (Json.str []) with
          | .str s => s
          | _ => []
        else []
      | _ => []
    else []
  | _ => []

/-- C1's claim-side reconstruction: the ordered concatenation of the
`text_delta` values across `content_block_delta` lines. -/
def sse_text_claim (lines : List SSELine) : List Char :=
  (lines.map lineClaimText).flatten

/-- A delta payload the parsers can process without raising: when the
event's `delta` value is consulted it must be a dict, and a `text_delta`
must carry a string `text`. -/
def goodDelta (kvs : List (List Char × Json)) : Bool :=
  match objGetD kvs kwDelta (Json.obj []) with
  | .obj dk =>
    if (objGetD dk kwType Json.null).eqStr kwTextDelta then
      match objGetD dk kwText (Json.str []) with
      | .str _ => true
      | _ => false
    else true
  | _ => false

/-- A usage value the parsers can process: if truthy it must be a dict. -/
def goodUsageVal (u : Json) : Bool := if u.truthy then u.isObj else true

/-- An event neither parser raises on: a JSON object whose consulted
sub-values have the shapes the `.get` chains assume. -/
def goodEvent (j : Json) : Bool :=
  match j with
  | .obj kvs =>
    let t := objGetD kvs kwType Json.null
    if t.eqStr kwCbd then goodDelta kvs
    else if t.eqStr kwMsgDelta then
      goodUsageVal (objGetD kvs kwUsage (Json.obj []))
    else if t.eqStr kwMsgStart then
      match objGetD kvs kwMessage (Json.obj []) with
      | .obj mk => goodUsageVal (objGetD mk kwUsage (Json.obj []))
      | _ => false
    else true
  | _ => false

/-- A line neither parser raises on. -/
def goodLine : SSELine → Bool
  | .notData => true
  | .doneLine => true
  | .badJson => true
  | .jsonLine j => goodEvent j

/-- Text of one block in langfuse's non-streaming join
(langfuse_logger.py lines 158-162): `block.get` raises on a non-dict
block; a non-string `text` value makes `''.join` raise. -/
def lfBlockText (b : Json) : Except Unit (List Char) :=
  match b with
  | .obj bk =>
    if (objGetD bk kwType Json.null).eqStr kwText then
      match objGetD bk kwText (Json.str []) with
      | .str s => .ok s
      | _ => .error ()
    else .ok []
  | _ => .error ()

/-- The generator-expression join of langfuse's non-streaming path. -/
def joinBlocksLf : List Char → List Json → Except Unit (List Char)
  | acc, [] => .ok acc
  | acc, b :: bs =>
    match lfBlockText b with
    | .ok t => joinBlocksLf (acc ++ t) bs
    | .error e => .error e

/-- `LangfuseLogger.response`, non-streaming branch (langfuse_logger.py
lines 154-163): parse the body as one JSON document, join the `text` of
`text`-typed blocks of `content` with no noise filtering, read `usage`
from the top level.  Iterating a non-list `content` raises unless it is
an empty string or empty dict (which iterate to nothing). -/
def lf_response_nonstream (body : Json) : Except Unit (List Char × Json) :=
  match body with
  | .obj kvs =>
    match objGetD kvs kwContent (Json.arr []) with
    | .arr blocks =>
      match joinBlocksLf [] blocks with
      | .ok out => .ok (out, objGetD kvs kwUsage (Json.obj []))
      | .error e => .error e
    | .str [] => .ok ([], objGetD kvs kwUsage (Json.obj []))
    | .obj [] => .ok ([], objGetD kvs kwUsage (Json.obj []))
    | _ => .error ()
  | _ => .error ()

/-- `ScribeLogger.response`, non-streaming branch (scribe_logger.py lines
291-294): parse the body as one JSON document, extract `content` through
`_extract_text_from_content` (so the noise filter runs), and read the
document `id` for message de-duplication — no usage field is read. -/
def scribe_response_nonstream (body : Json) : Except Unit (List Char × Json) :=
  match body with
  | .obj kvs =>
    match extract_text_from_content (objGetD kvs kwContent (Json.arr [])) with
    | .ok t => .ok (t, objGetD kvs kwId Json.null)
    | .error e => .error e
  | _ => .error ()

/-- Claim-side text of one content block for C7/C8: only a dict block of
type `"text"` contributes, namely its `text` string. -/
def claimBlockText (b : Json) : List Char :=
  match b with
  | .obj bk =>
    if (objGetD bk kwType Json.null).eqStr kwText then
      match objGetD bk kwText (Json.str []) with
      | .str s => s
      | _ => []
    else []
  | _ => []

/-- Claim-side concatenation of the `text`-typed blocks in order. -/
def claimConcat (blocks : List Json) : List Char :=
  (blocks.map claimBlockText).flatten

/-- A block langfuse's join never raises on: a dict whose `text` is a
string whenever its `type` is `"text"`. -/
def lfGoodBlock (b : Json) : Bool :=
  match b with
  | .obj bk =>
    if (objGetD bk kwType Json.null).eqStr kwText then
      match objGetD bk kwText (Json.str []) with
      | .str _ => true
      | _ => false
    else true
  | _ => false

/-- A block scribe's extraction never raises on: non-dict blocks are
always safe; a dict of type `"text"` needs a string `text`. -/
def scribeGoodBlock (b : Json) : Bool :=
  match b with
  | .obj bk =>
    if (objGetD bk kwType (Json.str [])).eqStr kwText then
      match objGetD bk kwText (Json.str []) with
      | .str _ => true
      | _ => false
    else true
  | _ => true

/-- Amended contribution of one block in scribe's extraction: text-typed
dict blocks contribute their `text`, bare string blocks contribute
themselves, everything else contributes nothing. -/
def scribeBlockContrib (b : Json) : List Char :=
  match b with
  | .str s => s
  | _ => claimBlockText b

/-- Amended concatenation for scribe's extraction. -/
def scribeConcat (blocks : List Json) : List Char :=
  (blocks.map scribeBlockContrib).flatten

/-- The pending-request context stored by `ScribeLogger.request`
(scribe_logger.py lines 237-241). -/
structure PendingReq where
  conv_uuid : List Char
  messages : List Json
  is_streaming : Bool

/-- `_pending_requests.pop(flow.id, None)` (scribe_logger.py line 275,
and `self.pending_flows.pop(flow.id, None)` in langfuse_logger.py line
142): atomically remove and return the entry for the flow id, or `none`.
The dict is modelled as an association list with unique keys. -/
def popStore (s : List (List Char × PendingReq)) (k : List Char) :
    Option PendingReq × List (List Char × PendingReq) :=
  ((match s.find? (fun kv => kv.1 == k) with
    | some kv => some kv.2
    | none => none),
   s.filter (fun kv => !(kv.1 == k)))

/-- The `has_text` gate of `ScribeLogger.request` (scribe_logger.py lines
254-260): a list content passes iff some block is a dict of type
`"text"`. -/
def hasTextBlock (blocks : List Json) : Bool :=
  blocks.any (fun b =>
    match b with
    | .obj bk => (objGetD bk kwType Json.null).eqStr kwText
    | _ => false)

/-- Whether a content value passes the purely-tool-results gate. -/
def msgContentOK (c : Json) : Bool :=
  match c with
  | .arr blocks => hasTextBlock blocks
  | _ => true

/-- The `for msg in reversed(messages)` loop of `ScribeLogger.request`
(scribe_logger.py lines 249-265), over the already-reversed list:
skip non-user messages, skip list contents with no text block, extract
and strip, and insert (returning the text) only when the stripped text
is non-empty and not system noise — otherwise keep scanning earlier
messages.  `msg.get` on a non-dict message raises. -/
def scribeFindUserGo : List Json → Except Unit (Option (List Char))
  | [] => .ok none
  | m :: rest =>
    match m with
    | .obj mk =>
      if (objGetD mk kwRole Json.null).eqStr kwUser then
        let c := objGetD mk kwContent (Json.str [])
        if msgContentOK c then
          match extract_text_from_content c with
          | .ok raw =>
            let t := pyStrip raw
            if !t.isEmpty && !(is_system_noise t) then .ok (some t)
            else scribeFindUserGo rest
          | .error e => .error e
        else scribeFindUserGo rest
      else scribeFindUserGo rest
    | _ => .error ()

/-- The user-message selection of `ScribeLogger.request`: the text it
inserts (`some`), or `none` when no message qualifies. -/
def scribe_request_user (msgs : List Json) : Except Unit (Option (List Char)) :=
  scribeFindUserGo msgs.reverse

/-- C10's claim-side candidate: a user message whose content is a plain
string or contains at least one text-typed block. -/
def claimUserCandidate (m : Json) : Bool :=
  match m with
  | .obj mk =>
    (objGetD mk kwRole Json.null).eqStr kwUser &&
    (match objGetD mk kwContent (Json.str []) with
     | .str _ => true
     | .arr blocks => hasTextBlock blocks
     | _ => false)
  | _ => false

/-- C10's claim-side selection: take the last candidate message, and
insert it only if its extracted, stripped text is non-empty and not
system noise — otherwise insert nothing at all. -/
def claimSelectUser (msgs : List Json) : Option (List Char) :=
  match msgs.reverse.find? claimUserCandidate with
  | none => none
  | some m =>
    match m with
    | .obj mk =>
      match extract_text_from_content (objGetD mk kwContent (Json.str [])) with
      | .ok raw =>
        let t := pyStrip raw
        if !t.isEmpty && !(is_system_noise t) then some t else none
      | .error _ => none
    | _ => none

/-- Amended per-message test: the message the loop actually stops at must
be a user message passing the text-block gate AND carry non-empty,
non-noise stripped text. -/
def pickUser (m : Json) : Option (List Char) :=
  match m with
  | .obj mk =>
    if (objGetD mk kwRole Json.null).eqStr kwUser then
      let c := objGetD mk kwContent (Json.str [])
      if msgContentOK c then
        match extract_text_from_content c with
        | .ok raw =>
          let t := pyStrip raw
          if !t.isEmpty && !(is_system_noise t) then some t else none
        | .error _ => none
      else none
    else none
  | _ => none

/-- Amended selection: the most recent message passing all the tests. -/
def amendedSelectUser (msgs : List Json) : Option (List Char) :=
  msgs.reverse.findSome? pickUser

/-- A content value scribe's extraction is safe on: a list must contain
only safe blocks; any non-list content never raises. -/
def goodContent (c : Json) : Bool :=
  match c with
  | .arr blocks => blocks.all scribeGoodBlock
  | _ => true

/-- A message the request hook processes without raising: a dict whose
content, when a list, contains only blocks scribe's extraction is safe
on. -/
def wellTypedMsg (m : Json) : Bool :=
  match m with
  | .obj mk => goodContent (objGetD mk kwContent (Json.str []))
  | _ => false

/-- `QUOTA_HEADERS` (quota_logger.py lines 19-29). -/
def QUOTA_HEADERS : List (List Char) :=
  ["anthropic-ratelimit-unified-5h-utilization".toList,
   "anthropic-ratelimit-unified-5h-reset".toList,
   "anthropic-ratelimit-unified-5h-status".toList,
   "anthropic-ratelimit-unified-7d-utilization".toList,
   "anthropic-ratelimit-unified-7d-reset".toList,
   "anthropic-ratelimit-unified-7d-status".toList,
   "anthropic-ratelimit-unified-fallback".toList,
   "anthropic-ratelimit-unified-fallback-percentage".toList,
   "anthropic-ratelimit-unified-overage-status".toList]

/-- `headers.get(k, dflt)` on the response header list. -/
def headerGetD (hs : List (List Char × List Char)) (k dflt : List Char) : List Char :=
  match hs.find? (fun kv => kv.1 == k) with
  | some kv => kv.2
  | none => dflt

/-- Python `pat in s` (substring containment). -/
def containsSub (s pat : List Char) : Bool := !(occs pat s).isEmpty

/-- Recognizer for strings Python's `float()` accepts (after stripping
whitespace and an optional sign): `inf`, `infinity`, `nan`
case-insensitively, or a decimal mantissa with optional exponent.
Digit-group underscores are not modelled; no addon input uses them. -/
def floatMantOk (m : List Char) : Bool :=
  let intPart := m.takeWhile Char.isDigit
  let rest := m.dropWhile Char.isDigit
  match rest with
  | [] => !intPart.isEmpty
  | '.' :: frac => (!intPart.isEmpty || !frac.isEmpty) && frac.all Char.isDigit
  | _ => false

/-- Exponent part after `e`/`E`: optional sign then one or more digits. -/
def floatExpOk (e : List Char) : Bool :=
  let e2 := match e with
    | '+' :: r => r
    | '-' :: r => r
    | r => r
  !e2.isEmpty && e2.all Char.isDigit

/-- Whether `float(s)` succeeds. -/
def pyFloatOk (s : List Char) : Bool :=
  let t0 := pyStrip s
  let t := match t0 with
    | '+' :: r => r
    | '-' :: r => r
    | r => r
  let low := t.map Char.toLower
  if low == "inf".toList || low == "infinity".toList || low == "nan".toList then true
  else
    let m := t.takeWhile (fun c => !(c = 'e' || c = 'E'))
    match t.dropWhile (fun c => !(c = 'e' || c = 'E')) with
    | [] => floatMantOk m
    | _ :: er => floatMantOk m && floatExpOk er

/-- `QuotaLogger.response` (quota_logger.py lines 41-66): skip non-API
hosts, skip responses with no quota header, otherwise assemble the CSV
row `(request-id, header values)` — and then crash with `ValueError` in
the `print` when either utilization header value does not parse as a
float (absent headers default to `"?"`, which never parses).  The row is
written to the CSV before the crash; the crash propagates out of the
hook. -/
def quota_response (host : List Char) (hs : List (List Char × List Char)) :
    Except Unit (Option (List Char × List (List Char))) :=
  if !(containsSub host "api.anthropic.com".toList) then .ok none
  else if !(QUOTA_HEADERS.any (fun h => hs.any (fun kv => kv.1 == h))) then .ok none
  else
    let requestId := headerGetD hs "request-id".toList []
    let vals := QUOTA_HEADERS.map (fun h => headerGetD hs h [])
    let u5 := headerGetD hs "anthropic-ratelimit-unified-5h-utilization".toList "?".toList
    let u7 := headerGetD hs "anthropic-ratelimit-unified-7d-utilization".toList "?".toList
    if pyFloatOk u5 && pyFloatOk u7 then .ok (some (requestId, vals)) else .error ()

/-- Helper to build a `content_block_delta`/`text_delta` line. -/
def mkTextDelta (s : List Char) : SSELine :=
  SSELine.jsonLine (Json.obj [(kwType, Json.str kwCbd),
    (kwDelta, Json.obj [(kwType, Json.str kwTextDelta),
      (kwText, Json.str s)])])

/-- Helper to build a `message_delta` line with the given usage value. -/
def mkMessageDelta (u : Json) : SSELine :=
  SSELine.jsonLine (Json.obj [(kwType, Json.str kwMsgDelta),
    (kwUsage, u)])

/-- Helper to build a `message_start` line with the given message value. -/
def mkMessageStart (m : Json) : SSELine :=
  SSELine.jsonLine (Json.obj [(kwType, Json.str kwMsgStart),
    (kwMessage, m)])

/-- Helper to build a user message with plain string content. -/
def mkUserMsg (s : List Char) : Json :=
  Json.obj [(kwRole, Json.str kwUser),
            (kwContent, Json.str s)]

/-- Three consecutive newlines, the pattern the final normalization
rewrites. -/
def nl3 : List Char := ['\n', '\n', '\n']

/-- A well-formed SSE stream: `message_start` with usage, two text
deltas, `message_delta` with output tokens, the `[DONE]` sentinel. -/
def exStream : List SSELine :=
  [mkMessageStart (Json.obj [(kwUsage, Json.obj [(kwInputTokens, Json.num 10)])]),
   mkTextDelta "Hello, ".toList, mkTextDelta "world".toList,
   mkMessageDelta (Json.obj [(kwOutputTokens, Json.num 5)]),
   SSELine.doneLine]

/-- A stream whose second data line parses as the JSON number `5`:
`json.loads` succeeds but `.get` raises `AttributeError`. -/
def exBadStream : List SSELine :=
  [mkTextDelta "Hi".toList, SSELine.jsonLine (Json.num 5)]

/-- Two `message_delta` events: the first carries `output_tokens`, the
second a truthy usage without it. -/
def exDeltaStream : List SSELine :=
  [mkMessageDelta (Json.obj [(kwOutputTokens, Json.num 5)]),
   mkMessageDelta (Json.obj [("stop_reason".toList, Json.str "end_turn".toList)])]

/-- A content list with one text block and one tool_use block. -/
def exBlocks : List Json :=
  [Json.obj [(kwType, Json.str kwText), (kwText, Json.str "good day.".toList)],
   Json.obj [(kwType, Json.str "tool_use".toList)]]

/-- A non-streaming response body whose only text block is exactly one
noise span, with a top-level usage object. -/
def exNoiseBody : Json :=
  Json.obj [(kwContent, Json.arr [Json.obj [(kwType, Json.str kwText),
    (kwText, Json.str "<system-reminder>x</system-reminder>".toList)]]),
    (kwUsage, Json.obj [(kwOutputTokens, Json.num 5)])]

/-- Two user messages: a real question followed (most recently) by a
message that is pure noise-tag content. -/
def exMsgs : List Json :=
  [mkUserMsg "what is the weather".toList,
   mkUserMsg "<system-reminder>x</system-reminder>".toList]

-- ======================================================================
-- Theorems.  Helper lemmas first, then one theorem per claim (with its
-- witness or counterexample).
-- ======================================================================

theorem dropWhile_idem (p : Char → Bool) (s : List Char) :
    (s.dropWhile p).dropWhile p = s.dropWhile p := by
  induction s with
  | nil => rfl
  | cons c t ih =>
    by_cases h : p c
    · simp [List.dropWhile_cons, h, ih]
    · simp [List.dropWhile_cons, h]

theorem lstrip_idem (s : List Char) : lstrip (lstrip s) = lstrip s :=
  dropWhile_idem pyIsSpace s

theorem rstrip_idem (s : List Char) : rstrip (rstrip s) = rstrip s := by
  unfold rstrip
  rw [List.reverse_reverse, lstrip_idem]

theorem lstrip_cons_of_false {c : Char} (t : List Char) (h : pyIsSpace c = false) :
    lstrip (c :: t) = c :: t := by
  simp [lstrip, List.dropWhile_cons, h]

theorem lstrip_head_false {s : List Char} {c : Char} {t : List Char}
    (hs : lstrip s = s) (he : s = c :: t) : pyIsSpace c = false := by
  subst he
  by_cases h : pyIsSpace c
  · exfalso
    have hlen : (lstrip (c :: t)).length ≤ t.length := by
      simpa [lstrip, List.dropWhile_cons, h] using
        (List.dropWhile_sublist (l := t) pyIsSpace).length_le
    rw [hs] at hlen
    simp at hlen
  · simpa using h

theorem lstrip_length_le (s : List Char) : (lstrip s).length ≤ s.length :=
  (List.dropWhile_sublist (l := s) pyIsSpace).length_le

theorem rstrip_length_le (s : List Char) : (rstrip s).length ≤ s.length := by
  have := lstrip_length_le s.reverse
  simpa [rstrip] using this

theorem lstrip_length_eq {s : List Char} (h : (lstrip s).length = s.length) :
    lstrip s = s := by
  cases s with
  | nil => rfl
  | cons c t =>
    by_cases hc : pyIsSpace c
    · exfalso
      have hle : (lstrip (c :: t)).length ≤ t.length := by
        simpa [lstrip, List.dropWhile_cons, hc] using
          (List.dropWhile_sublist (l := t) pyIsSpace).length_le
      rw [h] at hle
      simp at hle
    · simp [lstrip, List.dropWhile_cons, hc]

theorem rstrip_length_eq {s : List Char} (h : (rstrip s).length = s.length) :
    rstrip s = s := by
  have h2 : (lstrip s.reverse).length = s.reverse.length := by
    have : (rstrip s).length = (lstrip s.reverse).length := by simp [rstrip]
    simp only [List.length_reverse]
    rw [← this, h]
  have := lstrip_length_eq h2
  unfold rstrip
  rw [this, List.reverse_reverse]

theorem strippedP_split {s : List Char} (h : StrippedP s) :
    lstrip s = s ∧ rstrip s = s := by
  unfold StrippedP pyStrip at h
  have hlen : (rstrip (lstrip s)).length = s.length := by rw [h]
  have h1 : (rstrip (lstrip s)).length ≤ (lstrip s).length := rstrip_length_le _
  have h2 : (lstrip s).length ≤ s.length := lstrip_length_le s
  have hls : lstrip s = s := lstrip_length_eq (by omega)
  rw [hls] at h
  exact ⟨hls, h⟩

theorem strippedP_of_parts {s : List Char} (hl : lstrip s = s) (hr : rstrip s = s) :
    StrippedP s := by
  unfold StrippedP pyStrip
  rw [hl, hr]

theorem dropWhile_eq_drop (p : Char → Bool) (l : List Char) :
    l.dropWhile p = l.drop (l.takeWhile p).length := by
  have h0 := @List.drop_append Char (l.takeWhile p) (l.dropWhile p) 0
  rw [List.takeWhile_append_dropWhile] at h0
  simpa using h0.symm

theorem rstrip_eq_take (s : List Char) :
    rstrip s = s.take (s.length - (s.reverse.takeWhile pyIsSpace).length) := by
  unfold rstrip lstrip
  rw [dropWhile_eq_drop]
  rw [List.reverse_drop, List.reverse_reverse, List.length_reverse]

theorem rstrip_head {s : List Char} (h : rstrip s ≠ []) :
    (rstrip s).head? = s.head? := by
  rw [rstrip_eq_take] at h ⊢
  rw [List.head?_take]
  split
  · next hz =>
    rw [hz] at h
    simp at h
  · rfl

theorem lstrip_of_head_false {s : List Char} {c : Char} {t : List Char}
    (he : s = c :: t) (hc : pyIsSpace c = false) : lstrip s = s := by
  subst he
  exact lstrip_cons_of_false t hc

theorem pyStrip_idem (s : List Char) : pyStrip (pyStrip s) = pyStrip s := by
  unfold pyStrip
  have hmid : lstrip (rstrip (lstrip s)) = rstrip (lstrip s) := by
    cases hr : rstrip (lstrip s) with
    | nil => rfl
    | cons c t =>
      have hh : (rstrip (lstrip s)).head? = (lstrip s).head? :=
        rstrip_head (by rw [hr]; simp)
      rw [hr] at hh
      cases hls : lstrip s with
      | nil =>
        rw [hls] at hh
        simp at hh
      | cons c2 t2 =>
        rw [hls] at hh
        simp only [List.head?_cons, Option.some.injEq] at hh
        have hlsi : lstrip (lstrip s) = lstrip s := lstrip_idem s
        rw [hls] at hlsi
        have hc2 : pyIsSpace c2 = false := lstrip_head_false hlsi rfl
        rw [← hr]
        exact lstrip_of_head_false hr (hh ▸ hc2)
  rw [hmid, rstrip_idem]

theorem lstrip_eq_self_of_headF {s : List Char}
    (h : ∀ c, s.head? = some c → pyIsSpace c = false) : lstrip s = s := by
  cases s with
  | nil => rfl
  | cons c t => exact lstrip_cons_of_false t (h c rfl)

theorem rstrip_eq_self_iff (s : List Char) :
    rstrip s = s ↔ lstrip s.reverse = s.reverse := by
  constructor
  · intro h
    have := congrArg List.reverse h
    simpa [rstrip] using this
  · intro h
    unfold rstrip
    rw [h, List.reverse_reverse]

theorem rstrip_eq_self_of_getLastF {s : List Char}
    (h : ∀ c, s.getLast? = some c → pyIsSpace c = false) : rstrip s = s := by
  rw [rstrip_eq_self_iff]
  apply lstrip_eq_self_of_headF
  intro c hc
  rw [List.head?_reverse] at hc
  exact h c hc

theorem head_false_of_stripped {s : List Char} {c : Char}
    (hs : StrippedP s) (hc : s.head? = some c) : pyIsSpace c = false := by
  cases s with
  | nil => simp at hc
  | cons c0 t =>
    simp only [List.head?_cons, Option.some.injEq] at hc
    subst hc
    exact lstrip_head_false (strippedP_split hs).1 rfl

theorem getLast_false_of_stripped {s : List Char} {c : Char}
    (hs : StrippedP s) (hc : s.getLast? = some c) : pyIsSpace c = false := by
  have hr : rstrip s = s := (strippedP_split hs).2
  have hlr : lstrip s.reverse = s.reverse := (rstrip_eq_self_iff s).mp hr
  rw [← List.head?_reverse] at hc
  cases hrev : s.reverse with
  | nil =>
    rw [hrev] at hc
    simp at hc
  | cons c0 t =>
    rw [hrev] at hc
    simp only [List.head?_cons, Option.some.injEq] at hc
    subst hc
    rw [hrev] at hlr
    exact lstrip_head_false hlr rfl

theorem stripped_nil : StrippedP ([] : List Char) := rfl

theorem stripped_join {a b : List Char} (ha : StrippedP a) (hb : StrippedP b)
    (hna : a ≠ []) (hnb : b ≠ []) : StrippedP (a ++ '\n' :: '\n' :: b) := by
  apply strippedP_of_parts
  · apply lstrip_eq_self_of_headF
    intro c hc
    cases a with
    | nil => exact absurd rfl hna
    | cons a0 t =>
      simp only [List.cons_append, List.head?_cons, Option.some.injEq] at hc
      subst hc
      exact head_false_of_stripped ha rfl
  · apply rstrip_eq_self_of_getLastF
    intro c hc
    obtain ⟨cb, hcb⟩ : ∃ cb, b.getLast? = some cb := by
      cases hbl : b.getLast? with
      | none =>
        exfalso
        have := List.getLast?_isSome (l := b)
        rw [hbl] at this
        simp at this
        exact hnb this
      | some cb => exact ⟨cb, rfl⟩
    have hlast : (a ++ '\n' :: '\n' :: b).getLast? = some cb := by
      rw [List.getLast?_append]
      have h2 : ('\n' :: '\n' :: b).getLast? = some cb := by
        have hb2 : b ≠ [] := hnb
        cases b with
        | nil => exact absurd rfl hb2
        | cons b0 bt =>
          rw [List.getLast?_cons_cons, List.getLast?_cons_cons]
          exact hcb
      rw [h2]
      rfl
    rw [hlast] at hc
    simp only [Option.some.injEq] at hc
    subst hc
    exact getLast_false_of_stripped hb hcb

theorem pyStartsWith_pat_nil (s : List Char) : pyStartsWith s [] = true := by
  cases s <;> rfl

theorem pyStartsWith_nil_of_ne {pat : List Char} (h : pat ≠ []) :
    pyStartsWith [] pat = false := by
  cases pat with
  | nil => exact absurd rfl h
  | cons p ps => rfl

theorem occs_eq_nil_iff {pat s : List Char} (hp : pat ≠ []) :
    occs pat s = [] ↔ noOccP pat s := by
  constructor
  · intro h i
    by_cases hi : i ≤ s.length
    · have hmem : i ∈ List.range (s.length + 1) := List.mem_range.mpr (by omega)
      by_cases hsw : pyStartsWith (s.drop i) pat
      · exfalso
        have : i ∈ occs pat s := List.mem_filter.mpr ⟨hmem, hsw⟩
        rw [h] at this
        simp at this
      · simpa using hsw
    · rw [List.drop_eq_nil_of_le (by omega)]
      exact pyStartsWith_nil_of_ne hp
  · intro h
    apply List.filter_eq_nil_iff.mpr
    intro i _
    rw [h i]
    simp

theorem findIdx_eq_none_iff {pat s : List Char} (hp : pat ≠ []) :
    findIdx pat s = none ↔ noOccP pat s := by
  unfold findIdx
  rw [List.head?_eq_none_iff]
  exact occs_eq_nil_iff hp

theorem mem_of_getLast? {l : List Nat} {b : Nat} (h : l.getLast? = some b) : b ∈ l := by
  induction l with
  | nil => simp at h
  | cons x xs ih =>
    cases xs with
    | nil =>
      simp at h
      simp [h]
    | cons y ys =>
      rw [List.getLast?_cons_cons] at h
      exact List.mem_cons_of_mem x (ih h)

theorem le_getLast_of_pairwise {l : List Nat} (hp : l.Pairwise (· < ·))
    {a b : Nat} (ha : a ∈ l) (hb : l.getLast? = some b) : a ≤ b := by
  induction l with
  | nil => simp at ha
  | cons x xs ih =>
    cases xs with
    | nil =>
      simp at ha hb
      omega
    | cons y ys =>
      rw [List.getLast?_cons_cons] at hb
      rcases List.mem_cons.mp ha with rfl | hmem
      · have hlt : a < b := (List.pairwise_cons.mp hp).1 b (mem_of_getLast? hb)
        omega
      · exact ih (List.pairwise_cons.mp hp).2 hmem hb

theorem rfindIdx_max {pat s : List Char} (hp : pat ≠ []) {j p : Nat}
    (hj : rfindIdx pat s = some j) (hocc : pyStartsWith (s.drop p) pat = true) :
    p ≤ j := by
  have hple : p ≤ s.length := by
    by_contra hgt
    rw [List.drop_eq_nil_of_le (by omega)] at hocc
    rw [pyStartsWith_nil_of_ne hp] at hocc
    exact Bool.false_ne_true hocc
  have hmem : p ∈ occs pat s :=
    List.mem_filter.mpr ⟨List.mem_range.mpr (by omega), hocc⟩
  have hpw : (occs pat s).Pairwise (· < ·) :=
    (List.pairwise_lt_range (s.length + 1)).filter _
  exact le_getLast_of_pairwise hpw hmem hj

theorem noOcc_drop {pat s : List Char} (h : noOccP pat s) (n : Nat) :
    noOccP pat (s.drop n) := by
  intro i
  rw [List.drop_drop]
  exact h (n + i)

theorem noOcc_after_rfind {pat s : List Char} (hp : pat ≠ []) {j : Nat}
    (hj : rfindIdx pat s = some j) : noOccP pat (s.drop (j + pat.length)) := by
  intro i
  rw [List.drop_drop]
  by_cases hsw : pyStartsWith (s.drop (j + pat.length + i)) pat
  · exfalso
    have := rfindIdx_max hp hj hsw
    have hpat : 0 < pat.length := List.length_pos.mpr hp
    omega
  · simpa using hsw

theorem pyStartsWith_take {pat y : List Char} {n : Nat}
    (h : pyStartsWith (y.take n) pat = true) : pyStartsWith y pat = true := by
  induction pat generalizing y n with
  | nil => exact pyStartsWith_pat_nil y
  | cons p ps ih =>
    cases y with
    | nil =>
      simp only [List.take_nil] at h
      exact h
    | cons c t =>
      cases n with
      | zero =>
        simp only [List.take_zero] at h
        exact absurd h (by simp [pyStartsWith_nil_of_ne])
      | succ m =>
        simp only [List.take_succ_cons] at h
        unfold pyStartsWith at h ⊢
        rcases Bool.and_eq_true_iff.mp h with ⟨h1, h2⟩
        rw [h1, ih h2]
        rfl

theorem noOcc_take {pat s : List Char} (h : noOccP pat s) (n : Nat) :
    noOccP pat (s.take n) := by
  intro i
  by_cases hsw : pyStartsWith ((s.take n).drop i) pat
  · exfalso
    rw [List.drop_take] at hsw
    have := pyStartsWith_take hsw
    rw [h i] at this
    exact Bool.false_ne_true this
  · simpa using hsw

theorem noOcc_lstrip {pat s : List Char} (h : noOccP pat s) : noOccP pat (lstrip s) := by
  rw [lstrip, dropWhile_eq_drop]
  exact noOcc_drop h _

theorem noOcc_rstrip {pat s : List Char} (h : noOccP pat s) : noOccP pat (rstrip s) := by
  rw [rstrip_eq_take]
  exact noOcc_take h _

theorem noOcc_pyStrip {pat s : List Char} (h : noOccP pat s) : noOccP pat (pyStrip s) :=
  noOcc_rstrip (noOcc_lstrip h)

theorem noOcc_cons {pat c t} (h : noOccP pat (c :: t)) : noOccP pat t := by
  intro i
  have := h (i + 1)
  rwa [List.drop_succ_cons] at this

theorem reSubAux_id_of_noOcc {openT closeT : List Char} (hp : closeT ≠ []) :
    ∀ (fuel : Nat) (s : List Char), noOccP closeT s →
      reSubAux openT closeT fuel s = s := by
  intro fuel
  induction fuel with
  | zero =>
    intro s _
    cases s <;> rfl
  | succ f ih =>
    intro s hs
    cases s with
    | nil => rfl
    | cons c rest =>
      have hfind : findIdx closeT ((c :: rest).drop openT.length) = none :=
        (findIdx_eq_none_iff hp).mpr (noOcc_drop hs _)
      unfold reSubAux
      rw [hfind]
      by_cases hop : pyStartsWith (c :: rest) openT
      · simp [hop, ih rest (noOcc_cons hs)]
      · simp [hop, ih rest (noOcc_cons hs)]

theorem reSubTag_id_of_noOcc {openT closeT s : List Char} (hp : closeT ≠ [])
    (h : noOccP closeT s) : reSubTag openT closeT s = s :=
  reSubAux_id_of_noOcc hp s.length s h

theorem closeTag_ne_nil (tag : List Char) : closeTag tag ≠ [] := by
  simp [closeTag]

theorem strip_tag_claim_eq_pass (r tag : List Char) :
    strip_tag_claim r tag = strip_tag_pass r tag := rfl

theorem strip_tag_pass_none_open {r tag : List Char}
    (h : findIdx (openTag tag) r = none) : strip_tag_pass r tag = r := by
  unfold strip_tag_pass
  rw [h]

theorem strip_tag_pass_none_close {r tag : List Char}
    (h : rfindIdx (closeTag tag) r = none) : strip_tag_pass r tag = r := by
  unfold strip_tag_pass
  cases hf : findIdx (openTag tag) r with
  | none => rfl
  | some i => rw [h]

theorem strip_tag_skip {r tag : List Char} (h : bothMarkers tag r = false) :
    strip_tag_pass r tag = r := by
  unfold bothMarkers at h
  cases hf : findIdx (openTag tag) r with
  | none => exact strip_tag_pass_none_open hf
  | some i =>
    cases hr : rfindIdx (closeTag tag) r with
    | none => exact strip_tag_pass_none_close hr
    | some j =>
      rw [hf, hr] at h
      simp at h

theorem strip_tag_match_stripped {r tag : List Char} {i j : Nat}
    (hf : findIdx (openTag tag) r = some i) (hr : rfindIdx (closeTag tag) r = some j) :
    StrippedP (strip_tag_pass r tag) := by
  unfold strip_tag_pass
  rw [hf, hr]
  have hnc : noOccP (closeTag tag) (r.drop (j + (closeTag tag).length)) :=
    noOcc_after_rfind (closeTag_ne_nil tag) hr
  have hre : reSubTag (openTag tag) (closeTag tag)
      (pyStrip (r.drop (j + (closeTag tag).length)))
      = pyStrip (r.drop (j + (closeTag tag).length)) :=
    reSubTag_id_of_noOcc (closeTag_ne_nil tag) (noOcc_pyStrip hnc)
  simp only [hre]
  have hsb : StrippedP (pyStrip (r.take i)) := pyStrip_idem _
  have hsa : StrippedP (pyStrip (r.drop (j + (closeTag tag).length))) := pyStrip_idem _
  set before := pyStrip (r.take i) with hbdef
  set after := pyStrip (r.drop (j + (closeTag tag).length)) with hadef
  by_cases hb : before.isEmpty
  · have hbe : before = [] := List.isEmpty_iff.mp hb
    simp only [hbe]
    simp only [List.isEmpty_nil, Bool.not_true, Bool.false_and, if_false]
    exact hsa
  · by_cases ha : after.isEmpty
    · have hae : after = [] := List.isEmpty_iff.mp ha
      simp only [hae]
      simp only [List.isEmpty_nil, Bool.not_true, Bool.and_false, if_false]
      simp only [hb, Bool.not_false, if_true]
      exact hsb
    · simp only [hb, ha, Bool.not_false, Bool.and_self, if_true]
      have hbne : before ≠ [] := by
        intro hh
        rw [hh] at hb
        simp at hb
      have hane : after ≠ [] := by
        intro hh
        rw [hh] at ha
        simp at ha
      exact stripped_join hsb hsa hbne hane

theorem strip_tag_cases (r tag : List Char) :
    strip_tag_pass r tag = r ∨ StrippedP (strip_tag_pass r tag) := by
  cases hf : findIdx (openTag tag) r with
  | none => exact Or.inl (strip_tag_pass_none_open hf)
  | some i =>
    cases hr : rfindIdx (closeTag tag) r with
    | none => exact Or.inl (strip_tag_pass_none_close hr)
    | some j => exact Or.inr (strip_tag_match_stripped hf hr)

theorem fold_pres_stripped {r : List Char} (tags : List (List Char))
    (h : StrippedP r) : StrippedP (tags.foldl strip_tag_pass r) := by
  induction tags generalizing r with
  | nil => exact h
  | cons t ts ih =>
    rw [List.foldl_cons]
    rcases strip_tag_cases r t with heq | hst
    · rw [heq]
      exact ih h
    · exact ih hst

theorem fold_reaches_stripped {tag r : List Char} {tags : List (List Char)}
    (hmem : tag ∈ tags) (hbm : bothMarkers tag r = true) :
    StrippedP (tags.foldl strip_tag_pass r) := by
  induction tags generalizing r with
  | nil => simp at hmem
  | cons t ts ih =>
    rw [List.foldl_cons]
    rcases List.mem_cons.mp hmem with rfl | hmem2
    · unfold bothMarkers at hbm
      rcases Bool.and_eq_true_iff.mp hbm with ⟨h1, h2⟩
      cases hf : findIdx (openTag tag) r with
      | none =>
        rw [hf] at h1
        simp at h1
      | some i =>
        cases hr : rfindIdx (closeTag tag) r with
        | none =>
          rw [hr] at h2
          simp at h2
        | some j => exact fold_pres_stripped ts (strip_tag_match_stripped hf hr)
    · rcases strip_tag_cases r t with heq | hst
      · rw [heq]
        exact ih hmem2 hbm
      · exact fold_pres_stripped ts hst

theorem pyIsSpace_nl : pyIsSpace '\n' = true := rfl

theorem ne_nl_of_space_false {c : Char} (h : pyIsSpace c = false) : c ≠ '\n' := by
  intro he
  rw [he, pyIsSpace_nl] at h
  exact Bool.false_ne_true h.symm

theorem collapse_getLast : ∀ (s : List Char) (k : Nat) {c : Char},
    s.getLast? = some c → pyIsSpace c = false →
    (collapseAux k s).getLast? = some c := by
  intro s
  induction s with
  | nil =>
    intro k c hc _
    simp at hc
  | cons a t ih =>
    intro k c hc hsp
    cases t with
    | nil =>
      simp only [List.getLast?_singleton, Option.some.injEq] at hc
      subst hc
      have hne : a ≠ '\n' := ne_nl_of_space_false hsp
      unfold collapseAux
      simp only [hne, if_false]
      have : collapseAux 0 ([] : List Char) = [] := rfl
      rw [this]
      exact List.getLast?_concat _
    | cons b t2 =>
      rw [List.getLast?_cons_cons] at hc
      unfold collapseAux
      by_cases ha : a = '\n'
      · simp only [ha, if_true]
        exact ih (k + 1) hc hsp
      · simp only [ha, if_false]
        have hx := ih 0 hc hsp
        have hxne : collapseAux 0 (b :: t2) ≠ [] := by
          intro hh
          rw [hh] at hx
          simp at hx
        have h1 : (a :: collapseAux 0 (b :: t2)).getLast? = some c := by
          have : a :: collapseAux 0 (b :: t2) = [a] ++ collapseAux 0 (b :: t2) := rfl
          rw [this, List.getLast?_append, hx]
          rfl
        rw [List.getLast?_append, h1]
        rfl

theorem collapse_stripped {s : List Char} (h : StrippedP s) :
    StrippedP (collapseNewlines s) := by
  apply strippedP_of_parts
  · apply lstrip_eq_self_of_headF
    intro c hc
    cases s with
    | nil =>
      simp only [collapseNewlines, collapseAux, nlRun] at hc
      simp at hc
    | cons a t =>
      have hsp : pyIsSpace a = false := head_false_of_stripped h rfl
      have hne : a ≠ '\n' := ne_nl_of_space_false hsp
      unfold collapseNewlines collapseAux at hc
      simp only [hne, if_false, nlRun] at hc
      simp only [if_neg (by omega : ¬ 3 ≤ 0), List.replicate_zero, List.nil_append,
        List.head?_cons, Option.some.injEq] at hc
      subst hc
      exact hsp
  · apply rstrip_eq_self_of_getLastF
    intro c hc
    cases s with
    | nil =>
      simp only [collapseNewlines, collapseAux, nlRun] at hc
      simp at hc
    | cons a t =>
      obtain ⟨c0, hc0⟩ : ∃ c0, (a :: t).getLast? = some c0 := by
        cases hg : (a :: t).getLast? with
        | none =>
          exfalso
          have := List.getLast?_isSome (l := a :: t)
          rw [hg] at this
          simp at this
        | some c0 => exact ⟨c0, rfl⟩
      have hsp0 : pyIsSpace c0 = false := getLast_false_of_stripped h hc0
      have := collapse_getLast (a :: t) 0 hc0 hsp0
      rw [collapseNewlines] at hc
      rw [this] at hc
      simp only [Option.some.injEq] at hc
      subst hc
      exact hsp0

theorem pyStartsWith_head_ne {p c : Char} (t r : List Char) (h : p ≠ c) :
    pyStartsWith (c :: t) (p :: r) = false := by
  unfold pyStartsWith
  have : (p == c) = false := by
    simp [h]
  rw [this]
  rfl

theorem pyStartsWith_headF_nl {x : List Char} (r : List Char)
    (hx : ∀ c, x.head? = some c → c ≠ '\n') :
    pyStartsWith x ('\n' :: r) = false := by
  cases x with
  | nil => rfl
  | cons c t => exact pyStartsWith_head_ne t r (fun he => hx c rfl he.symm)

theorem noOcc_nl3_nil : noOccP nl3 [] := by
  intro i
  rw [List.drop_nil]
  rfl

theorem noOcc_nl3_cons {c : Char} {t : List Char} (hc : c ≠ '\n')
    (ht : noOccP nl3 t) : noOccP nl3 (c :: t) := by
  intro i
  cases i with
  | zero =>
    rw [List.drop_zero]
    exact pyStartsWith_head_ne t _ (fun he => hc he.symm)
  | succ i2 =>
    rw [List.drop_succ_cons]
    exact ht i2

theorem headF_of_ne {x : List Char} {c0 : Char} {t0 : List Char}
    (he : x = c0 :: t0) (hc : c0 ≠ '\n') : ∀ c, x.head? = some c → c ≠ '\n' := by
  intro c hcc
  subst he
  simp only [List.head?_cons, Option.some.injEq] at hcc
  subst hcc
  exact hc

theorem noOcc_nl3_rep {m : Nat} {x : List Char} (hm : m ≤ 2)
    (hx : ∀ c, x.head? = some c → c ≠ '\n') (hno : noOccP nl3 x) :
    noOccP nl3 (List.replicate m '\n' ++ x) := by
  interval_cases m
  · simpa using hno
  · simp only [List.replicate_one, List.singleton_append]
    intro i
    cases i with
    | zero =>
      rw [List.drop_zero]
      show ((('\n' : Char) == '\n') && pyStartsWith x ['\n', '\n']) = false
      have : pyStartsWith x ('\n' :: ['\n']) = false := pyStartsWith_headF_nl _ hx
      simp [this]
    | succ i2 =>
      rw [List.drop_succ_cons]
      exact hno i2
  · have h2 : List.replicate 2 '\n' ++ x = '\n' :: '\n' :: x := rfl
    rw [h2]
    intro i
    match i with
    | 0 =>
      rw [List.drop_zero]
      show ((('\n' : Char) == '\n') && ((('\n' : Char) == '\n')
            && pyStartsWith x ['\n'])) = false
      have : pyStartsWith x ('\n' :: []) = false := pyStartsWith_headF_nl _ hx
      simp [this]
    | 1 =>
      rw [List.drop_succ_cons, List.drop_zero]
      show ((('\n' : Char) == '\n') && pyStartsWith x ['\n', '\n']) = false
      have : pyStartsWith x ('\n' :: ['\n']) = false := pyStartsWith_headF_nl _ hx
      simp [this]
    | (i2 + 2) =>
      rw [List.drop_succ_cons, List.drop_succ_cons]
      exact hno i2

theorem nlRun_le_two (k : Nat) : (if 3 ≤ k then 2 else k) ≤ 2 ∨ k ≤ 2 := by
  by_cases h : 3 ≤ k
  · left
    simp [h]
  · right
    omega

theorem collapse_noOcc_nl3 : ∀ (s : List Char) (k : Nat),
    noOccP nl3 (collapseAux k s) := by
  intro s
  induction s with
  | nil =>
    intro k
    unfold collapseAux nlRun
    have hm : (if 3 ≤ k then 2 else k) ≤ 2 ∨ True := by
      by_cases h : 3 ≤ k
      · left
        simp [h]
      · right
        trivial
    by_cases h : 3 ≤ k
    · simp only [h, if_true]
      have := noOcc_nl3_rep (m := 2) (x := []) (by omega)
        (by intro c hc; simp at hc) noOcc_nl3_nil
      simpa using this
    · simp only [h, if_false]
      have hk : k ≤ 2 := by omega
      have := noOcc_nl3_rep (m := k) (x := []) hk
        (by intro c hc; simp at hc) noOcc_nl3_nil
      simpa using this
  | cons c t ih =>
    intro k
    unfold collapseAux
    by_cases hc : c = '\n'
    · simp only [hc, if_true]
      exact ih (k + 1)
    · simp only [hc, if_false]
      unfold nlRun
      have hxhead : ∀ c2, (c :: collapseAux 0 t).head? = some c2 → c2 ≠ '\n' :=
        headF_of_ne rfl hc
      have hxno : noOccP nl3 (c :: collapseAux 0 t) := noOcc_nl3_cons hc (ih 0)
      by_cases h3 : 3 ≤ k
      · simp only [h3, if_true]
        exact noOcc_nl3_rep (by omega) hxhead hxno
      · simp only [h3, if_false]
        exact noOcc_nl3_rep (by omega) hxhead hxno

theorem rep_nl_shift (k : Nat) (t : List Char) :
    List.replicate k '\n' ++ '\n' :: t = List.replicate (k + 1) '\n' ++ t := by
  rw [List.replicate_succ' k '\n', List.append_assoc]
  rfl

theorem collapse_id_of_noOcc : ∀ (s : List Char) (k : Nat), k ≤ 2 →
    noOccP nl3 (List.replicate k '\n' ++ s) →
    collapseAux k s = List.replicate k '\n' ++ s := by
  intro s
  induction s with
  | nil =>
    intro k hk _
    unfold collapseAux nlRun
    have h3 : ¬ 3 ≤ k := by omega
    simp [h3]
  | cons c t ih =>
    intro k hk hno
    unfold collapseAux
    by_cases hc : c = '\n'
    · subst hc
      rw [rep_nl_shift] at hno
      have hk1 : k + 1 ≤ 2 := by
        by_contra hgt
        have hk2 : k = 2 := by omega
        subst hk2
        have h0 := hno 0
        rw [List.drop_zero] at h0
        have : List.replicate 3 '\n' ++ t = '\n' :: '\n' :: '\n' :: t := rfl
        rw [this] at h0
        have htrue : pyStartsWith ('\n' :: '\n' :: '\n' :: t) nl3 = true := by
          show ((('\n' : Char) == '\n') && ((('\n' : Char) == '\n')
            && ((('\n' : Char) == '\n') && pyStartsWith t []))) = true
          rw [pyStartsWith_pat_nil]
          simp
        rw [htrue] at h0
        exact Bool.false_ne_true h0.symm
      simp only [if_true]
      rw [ih (k + 1) hk1 hno]
      rw [rep_nl_shift]
    · simp only [hc, if_false]
      unfold nlRun
      have h3 : ¬ 3 ≤ k := by omega
      simp only [h3, if_false]
      have hnot : noOccP nl3 t := by
        intro i
        have h1 := hno (k + (1 + i))
        have h2 : List.drop (k + (1 + i)) (List.replicate k '\n' ++ c :: t)
            = List.drop i t := by
          rw [← List.drop_drop]
          have hd : List.drop k (List.replicate k '\n' ++ c :: t) = c :: t := by
            have hdl := List.drop_left (List.replicate k '\n') (c :: t)
            simp only [List.length_replicate] at hdl
            exact hdl
          rw [hd, Nat.add_comm 1 i, List.drop_succ_cons]
        rw [h2] at h1
        exact h1
      rw [ih 0 (by omega) (by simpa using hnot)]
      simp

theorem fold_skip_all {text : List Char} {tags : List (List Char)}
    (h : ∀ tag ∈ tags, bothMarkers tag text = false) :
    tags.foldl strip_tag_pass text = text := by
  induction tags with
  | nil => rfl
  | cons t ts ih =>
    rw [List.foldl_cons, strip_tag_skip (h t (List.mem_cons_self t ts))]
    exact ih (fun tag hm => h tag (List.mem_cons_of_mem t hm))

theorem strip_claim_as_pass (text : List Char) :
    strip_claim text = collapseNewlines (NOISE_TAGS.foldl strip_tag_pass text) := by
  unfold strip_claim
  have hfun : strip_tag_claim = strip_tag_pass :=
    funext fun r => funext fun t => strip_tag_claim_eq_pass r t
  rw [hfun]

/-- C4: for every input text and every configured tag whose opening and
closing markers both occur, `_strip_noise_tags` computes exactly the
claim's procedure: per-tag, remove from the first opening marker through
the end of the last closing marker, trim prefix and suffix, run the
second `re.sub` pass over the suffix only, join with a blank line when
both survive; apply this once per configured tag in declared order over
the cumulative result, then collapse runs of three or more newlines to
exactly two.  (The trailing `.strip()` in the source is a no-op in this
universe: once some tag fired, the result carries no surrounding
whitespace.) -/
theorem noise_strip_matches_claim (text tag : List Char) (hmem : tag ∈ NOISE_TAGS)
    (hbm : bothMarkers tag text = true) :
    strip_noise_tags text = strip_claim text := by
  have hstr : StrippedP (NOISE_TAGS.foldl strip_tag_pass text) :=
    fold_reaches_stripped hmem hbm
  have hcoll : pyStrip (collapseNewlines (NOISE_TAGS.foldl strip_tag_pass text))
      = collapseNewlines (NOISE_TAGS.foldl strip_tag_pass text) :=
    collapse_stripped hstr
  unfold strip_noise_tags
  rw [hcoll, strip_claim_as_pass]

/-- C4 witness: the theorem applied at a concrete noisy text. -/
theorem noise_strip_matches_claim_witness :
    ("system-reminder".toList ∈ NOISE_TAGS
      ∧ bothMarkers "system-reminder".toList
          "a.<system-reminder>x</system-reminder>b!".toList = true)
    ∧ strip_noise_tags "a.<system-reminder>x</system-reminder>b!".toList
        = strip_claim "a.<system-reminder>x</system-reminder>b!".toList :=
  ⟨⟨by decide, by decide⟩,
    noise_strip_matches_claim "a.<system-reminder>x</system-reminder>b!".toList
      "system-reminder".toList (by decide) (by decide)⟩

/-- C5 counterexample: the text `" x"` contains no noise markers at all,
yet `_strip_noise_tags` returns `"x"`, not the input unchanged — the
final `re.sub(...).strip()` normalization runs regardless of whether any
tag matched. -/
theorem noise_strip_identity_counterexample :
    (NOISE_TAGS.all (fun tag => !(bothMarkers tag " x".toList))) = true
    ∧ strip_noise_tags " x".toList ≠ " x".toList := by
  constructor
  · decide
  · decide

/-- C5 (amended): on a text where, for each configured tag, the opening
or closing marker is absent, the per-tag passes all skip and
`_strip_noise_tags` returns the input with only the final normalization
applied: newline runs of three or more collapsed to two, then
surrounding whitespace stripped.  In particular a text with no long
newline run and no surrounding whitespace is returned unchanged. -/
theorem noise_strip_no_tags (text : List Char)
    (h : ∀ tag ∈ NOISE_TAGS, bothMarkers tag text = false) :
    strip_noise_tags text = pyStrip (collapseNewlines text) := by
  unfold strip_noise_tags
  rw [fold_skip_all h]

/-- C5 witness: the amended theorem applied at `"hello"`, a marker-free,
already-normalized text, which is returned unchanged. -/
theorem noise_strip_no_tags_witness :
    (∀ tag ∈ NOISE_TAGS, bothMarkers tag "hello".toList = false)
    ∧ strip_noise_tags "hello".toList = pyStrip (collapseNewlines "hello".toList) :=
  ⟨by decide, noise_strip_no_tags _ (by decide)⟩

/-- C6 counterexample: `_strip_noise_tags` is not idempotent.  On
`"</command-name>A<command-name>B</command-name>C<command-name>D"` the
first pass leaves a closing marker in the kept prefix and an opening
marker in the kept suffix, so the second application fires again and
removes more text. -/
theorem noise_strip_idem_counterexample :
    strip_noise_tags (strip_noise_tags
      "</command-name>A<command-name>B</command-name>C<command-name>D".toList)
    ≠ strip_noise_tags
      "</command-name>A<command-name>B</command-name>C<command-name>D".toList := by
  decide

/-- C6 (amended): `_strip_noise_tags` is idempotent on every text whose
first-pass output no longer contains both markers of any configured tag
(the counterexample shows the restriction is necessary). -/
theorem noise_strip_idem_amended (text : List Char)
    (h : ∀ tag ∈ NOISE_TAGS, bothMarkers tag (strip_noise_tags text) = false) :
    strip_noise_tags (strip_noise_tags text) = strip_noise_tags text := by
  set w := strip_noise_tags text with hw
  unfold strip_noise_tags
  rw [fold_skip_all h]
  have hno : noOccP nl3 w := by
    rw [hw]
    unfold strip_noise_tags
    exact noOcc_pyStrip (collapse_noOcc_nl3 _ 0)
  have hcw : collapseNewlines w = w := by
    have hid := collapse_id_of_noOcc w 0 (by omega) (by simpa using hno)
    simpa [collapseNewlines] using hid
  rw [hcw, hw]
  unfold strip_noise_tags
  exact pyStrip_idem _

/-- C6 witness: the amended theorem applied at `"hi there."`. -/
theorem noise_strip_idem_amended_witness :
    (∀ tag ∈ NOISE_TAGS, bothMarkers tag (strip_noise_tags "hi there.".toList) = false)
    ∧ strip_noise_tags (strip_noise_tags "hi there.".toList)
        = strip_noise_tags "hi there.".toList :=
  ⟨by decide, noise_strip_idem_amended _ (by decide)⟩

theorem find?_filter_ne (s : List (List Char × PendingReq)) (k : List Char) :
    (s.filter (fun kv => !(kv.1 == k))).find? (fun kv => kv.1 == k) = none := by
  apply List.find?_eq_none.mpr
  intro kv hmem hkv
  have h2 := (List.mem_filter.mp hmem).2
  rw [hkv] at h2
  simp at h2

theorem filter_ne_idem (s : List (List Char × PendingReq)) (k : List Char) :
    (s.filter (fun kv => !(kv.1 == k))).filter (fun kv => !(kv.1 == k))
      = s.filter (fun kv => !(kv.1 == k)) := by
  rw [List.filter_filter]
  simp [Bool.and_self]

/-- C3: `pop(flow.id, None)` consumes a pending request at most once:
after a first `take` for a flow id, a second `take` for the same id
finds nothing (so the response hook returns without emitting a record)
and leaves the store unchanged; in particular the same `PendingReq` is
never returned twice. -/
theorem pending_take_at_most_once (s : List (List Char × PendingReq)) (k : List Char) :
    popStore (popStore s k).2 k = (none, (popStore s k).2) := by
  show popStore (s.filter (fun kv => !(kv.1 == k))) k
      = (none, s.filter (fun kv => !(kv.1 == k)))
  unfold popStore
  rw [find?_filter_ne, filter_ne_idem]

/-- C9 code_bug theorem: a response from the API host carrying the
`anthropic-ratelimit-unified-fallback` header but no parseable 5h/7d
utilization value makes `QuotaLogger.response` raise (`float("?")` is a
`ValueError`), escaping the hook — there is no try/except in this
addon. -/
theorem quota_response_raises :
    quota_response "api.anthropic.com".toList
      [("anthropic-ratelimit-unified-fallback".toList, "1".toList)]
      = Except.error () := rfl

theorem objGetD_type_default (kvs : List (List Char × Json)) (key lit : List Char)
    (hl : lit ≠ []) :
    (objGetD kvs key (Json.str [])).eqStr lit = (objGetD kvs key Json.null).eqStr lit := by
  unfold objGetD
  cases List.find? (fun kv => kv.1 == key) kvs with
  | some kv => rfl
  | none =>
    cases lit with
    | nil => exact absurd rfl hl
    | cons c cs => rfl

theorem scribe_step_good {acc : List Char} {l : SSELine} (h : goodLine l = true) :
    scribeStep acc l = .ok (acc ++ lineClaimText l) := by
  cases l with
  | notData => simp [scribeStep, lineClaimText]
  | doneLine => simp [scribeStep, lineClaimText]
  | badJson => simp [scribeStep, lineClaimText]
  | jsonLine j =>
    cases j with
    | null => simp [goodLine, goodEvent] at h
    | bool b => simp [goodLine, goodEvent] at h
    | num n => simp [goodLine, goodEvent] at h
    | str s => simp [goodLine, goodEvent] at h
    | arr items => simp [goodLine, goodEvent] at h
    | obj kvs =>
      simp only [goodLine, goodEvent] at h
      simp only [scribeStep, scribeProcessObj, lineClaimText]
      rw [objGetD_type_default kvs kwType kwCbd (by decide)]
      by_cases hcbd :
          (objGetD kvs kwType Json.null).eqStr kwCbd
      · simp only [hcbd, if_true] at h ⊢
        unfold goodDelta at h
        cases hdelta : objGetD kvs kwDelta (Json.obj []) with
        | obj dk =>
          rw [hdelta] at h
          by_cases htd : (objGetD dk kwType Json.null).eqStr kwTextDelta
          · simp only [htd, if_true] at h ⊢
            cases htx : objGetD dk kwText (Json.str []) with
            | str s => simp
            | null => rw [htx] at h; simp at h
            | bool b => rw [htx] at h; simp at h
            | num n => rw [htx] at h; simp at h
            | arr items => rw [htx] at h; simp at h
            | obj entries => rw [htx] at h; simp at h
          · rw [Bool.not_eq_true] at htd
            simp [htd]
        | null => rw [hdelta] at h; simp at h
        | bool b => rw [hdelta] at h; simp at h
        | num n => rw [hdelta] at h; simp at h
        | str s => rw [hdelta] at h; simp at h
        | arr items => rw [hdelta] at h; simp at h
      · rw [Bool.not_eq_true] at hcbd
        simp [hcbd]

theorem lf_step_good {st : List Char × Option LfUsage} {l : SSELine}
    (h : goodLine l = true) :
    ∃ u2, lfStep st l = .ok (st.1 ++ lineClaimText l, u2) := by
  cases l with
  | notData => exact ⟨st.2, by simp [lfStep, lineClaimText]⟩
  | doneLine => exact ⟨st.2, by simp [lfStep, lineClaimText]⟩
  | badJson => exact ⟨st.2, by simp [lfStep, lineClaimText]⟩
  | jsonLine j =>
    cases j with
    | null => simp [goodLine, goodEvent] at h
    | bool b => simp [goodLine, goodEvent] at h
    | num n => simp [goodLine, goodEvent] at h
    | str s => simp [goodLine, goodEvent] at h
    | arr items => simp [goodLine, goodEvent] at h
    | obj kvs =>
      simp only [goodLine, goodEvent] at h
      simp only [lfStep, lfProcessObj, lineClaimText]
      by_cases hcbd : (objGetD kvs kwType Json.null).eqStr kwCbd
      · simp only [hcbd, if_true] at h ⊢
        unfold goodDelta at h
        cases hdelta : objGetD kvs kwDelta (Json.obj []) with
        | obj dk =>
          rw [hdelta] at h
          by_cases htd : (objGetD dk kwType Json.null).eqStr kwTextDelta
          · simp only [htd, if_true] at h ⊢
            cases htx : objGetD dk kwText (Json.str []) with
            | str s => exact ⟨st.2, by simp⟩
            | null => rw [htx] at h; simp at h
            | bool b => rw [htx] at h; simp at h
            | num n => rw [htx] at h; simp at h
            | arr items => rw [htx] at h; simp at h
            | obj entries => rw [htx] at h; simp at h
          · refine ⟨st.2, ?_⟩
            rw [Bool.not_eq_true] at htd
            simp [htd]
        | null => rw [hdelta] at h; simp at h
        | bool b => rw [hdelta] at h; simp at h
        | num n => rw [hdelta] at h; simp at h
        | str s => rw [hdelta] at h; simp at h
        | arr items => rw [hdelta] at h; simp at h
      · rw [Bool.not_eq_true] at hcbd
        simp only [hcbd, Bool.false_eq_true, if_false] at h ⊢
        by_cases hmd : (objGetD kvs kwType Json.null).eqStr kwMsgDelta
        · simp only [hmd, if_true] at h ⊢
          unfold goodUsageVal at h
          cases hdu : objGetD kvs kwUsage (Json.obj []) with
          | obj uk =>
            rw [hdu] at h
            by_cases htr : (Json.obj uk).truthy
            · refine ⟨some ⟨(st.2.getD emptyUsage).input_tokens,
                (st.2.getD emptyUsage).cache_creation_input_tokens,
                (st.2.getD emptyUsage).cache_read_input_tokens,
                some (objGetD uk kwOutputTokens Json.null)⟩, ?_⟩
              simp [htr]
            · refine ⟨st.2, ?_⟩
              rw [Bool.not_eq_true] at htr
              simp [htr]
          | null => exact ⟨st.2, by simp [Json.truthy]⟩
          | bool b =>
            rw [hdu] at h
            cases b with
            | true => simp [Json.truthy, Json.isObj] at h
            | false => exact ⟨st.2, by simp [Json.truthy]⟩
          | num n =>
            rw [hdu] at h
            by_cases hn : n = 0
            · subst hn
              exact ⟨st.2, by simp [Json.truthy]⟩
            · exfalso
              simp [Json.truthy, Json.isObj, hn] at h
          | str s =>
            rw [hdu] at h
            cases s with
            | nil => exact ⟨st.2, by simp [Json.truthy]⟩
            | cons c cs =>
              exfalso
              simp [Json.truthy, Json.isObj] at h
          | arr items =>
            rw [hdu] at h
            cases items with
            | nil => exact ⟨st.2, by simp [Json.truthy]⟩
            | cons a as =>
              exfalso
              simp [Json.truthy, Json.isObj] at h
        · rw [Bool.not_eq_true] at hmd
          simp only [hmd, Bool.false_eq_true, if_false] at h ⊢
          by_cases hms : (objGetD kvs kwType Json.null).eqStr kwMsgStart
          · simp only [hms, if_true] at h ⊢
            cases hmsg : objGetD kvs kwMessage (Json.obj []) with
            | obj mk =>
              rw [hmsg] at h
              simp only [goodUsageVal] at h
              cases hmu : objGetD mk kwUsage (Json.obj []) with
              | obj muk =>
                rw [hmu] at h
                by_cases htr : (Json.obj muk).truthy
                · refine ⟨some ⟨some (objGetD muk kwInputTokens Json.null),
                    some (objGetD muk kwCacheCreation Json.null),
                    some (objGetD muk kwCacheRead Json.null),
                    (st.2.getD emptyUsage).output_tokens⟩, ?_⟩
                  simp [hmu, htr]
                · refine ⟨st.2, ?_⟩
                  rw [Bool.not_eq_true] at htr
                  simp [hmu, htr]
              | null => exact ⟨st.2, by simp [hmu, Json.truthy]⟩
              | bool b =>
                rw [hmu] at h
                cases b with
                | true => simp [Json.truthy, Json.isObj] at h
                | false => exact ⟨st.2, by simp [hmu, Json.truthy]⟩
              | num n =>
                rw [hmu] at h
                by_cases hn : n = 0
                · subst hn
                  exact ⟨st.2, by simp [hmu, Json.truthy]⟩
                · exfalso
                  simp [Json.truthy, Json.isObj, hn] at h
              | str s =>
                rw [hmu] at h
                cases s with
                | nil => exact ⟨st.2, by simp [hmu, Json.truthy]⟩
                | cons c cs =>
                  exfalso
                  simp [Json.truthy, Json.isObj] at h
              | arr items =>
                rw [hmu] at h
                cases items with
                | nil => exact ⟨st.2, by simp [hmu, Json.truthy]⟩
                | cons a as =>
                  exfalso
                  simp [Json.truthy, Json.isObj] at h
            | null => rw [hmsg] at h; simp at h
            | bool b => rw [hmsg] at h; simp at h
            | num n => rw [hmsg] at h; simp at h
            | str s => rw [hmsg] at h; simp at h
            | arr items => rw [hmsg] at h; simp at h
          · refine ⟨st.2, ?_⟩
            rw [Bool.not_eq_true] at hms
            simp [hms]

theorem eqStr_unique {j : Json} {a b : List Char} (hab : a ≠ b) (h : j.eqStr a = true) :
    j.eqStr b = false := by
  cases j with
  | str s =>
    simp only [Json.eqStr] at h ⊢
    have hs : s = a := by simpa using h
    subst hs
    simpa using hab
  | null => rfl
  | bool v => rfl
  | num n => rfl
  | arr items => rfl
  | obj entries => rfl

theorem scribe_parse_go_good : ∀ (lines : List SSELine) (acc : List Char),
    (∀ l ∈ lines, goodLine l = true) →
    scribeParseGo acc lines = .ok (acc ++ sse_text_claim lines) := by
  intro lines
  induction lines with
  | nil =>
    intro acc _
    simp [scribeParseGo, sse_text_claim]
  | cons l ls ih =>
    intro acc h
    have hl := h l (List.mem_cons_self l ls)
    have hstep := @scribe_step_good acc l hl
    simp only [scribeParseGo, hstep]
    rw [ih (acc ++ lineClaimText l) (fun x hx => h x (List.mem_cons_of_mem l hx))]
    simp [sse_text_claim]

theorem lf_parse_go_good : ∀ (lines : List SSELine) (st : List Char × Option LfUsage),
    (∀ l ∈ lines, goodLine l = true) →
    ∃ u, lfParseGo st lines = .ok (st.1 ++ sse_text_claim lines, u) := by
  intro lines
  induction lines with
  | nil =>
    intro st _
    exact ⟨st.2, by simp [lfParseGo, sse_text_claim]⟩
  | cons l ls ih =>
    intro st h
    have hl := h l (List.mem_cons_self l ls)
    obtain ⟨u2, hstep⟩ := @lf_step_good st l hl
    obtain ⟨u3, hrest⟩ := ih (st.1 ++ lineClaimText l, u2)
      (fun x hx => h x (List.mem_cons_of_mem l hx))
    refine ⟨u3, ?_⟩
    simp only [lfParseGo, hstep]
    rw [hrest]
    simp [sse_text_claim]

/-- C1 counterexample: both SSE parsers wrap each line's `json.loads` in
`except json.JSONDecodeError` only; a `data:` line whose payload parses
to the JSON number `5` raises `AttributeError` at `event.get` and aborts
the whole reconstruction (in scribe the exception escapes
`_parse_sse_response`; in langfuse it escapes `parse_sse_stream`), so no
text is returned at all — the claim would require the text `"Hi"` from
the first line with processing continuing past the bad line. -/
theorem sse_reconstruction_counterexample :
    parse_sse_response exBadStream = .error ()
    ∧ parse_sse_stream exBadStream = .error ()
    ∧ sse_text_claim exBadStream = "Hi".toList :=
  ⟨rfl, rfl, rfl⟩

/-- C1 (amended): on every SSE line sequence in which each data line
either fails JSON parsing or parses to a JSON object whose consulted
sub-values have the shapes the `.get` chains assume (`delta` a dict with
string `text` when consulted, truthy `usage`/`message.usage` a dict,
`message` a dict), both reconstructions return exactly the ordered
concatenation of the `text_delta` texts of `content_block_delta` lines;
all other lines — `message_start`, `message_delta`, `message_stop`, the
`[DONE]` sentinel, unrecognized types, unparseable lines — contribute
nothing and do not abort processing. -/
theorem sse_reconstruction_amended (lines : List SSELine)
    (h : ∀ l ∈ lines, goodLine l = true) :
    parse_sse_response lines = .ok (sse_text_claim lines)
    ∧ ∃ u, parse_sse_stream lines = .ok (sse_text_claim lines, u) := by
  constructor
  · have hg := scribe_parse_go_good lines [] h
    simpa [parse_sse_response] using hg
  · have hg := lf_parse_go_good lines ([], none) h
    simpa [parse_sse_stream] using hg

/-- C1 witness: the amended theorem applied at a well-formed stream. -/
theorem sse_reconstruction_amended_witness :
    (∀ l ∈ exStream, goodLine l = true)
    ∧ (parse_sse_response exStream = .ok (sse_text_claim exStream)
       ∧ ∃ u, parse_sse_stream exStream = .ok (sse_text_claim exStream, u)) :=
  ⟨by decide, sse_reconstruction_amended exStream (by decide)⟩

/-- C2 counterexample: usage merging is not monotonic.  A first
`message_delta` with `usage.output_tokens = 5` sets the field to 5; a
second `message_delta` whose usage is truthy but lacks `output_tokens`
(here `{"stop_reason": "end_turn"}`) overwrites it with `None` — the
code guards only `if delta_usage:`, not the presence of the field, so a
field once set to a non-null value is later replaced by null. -/
theorem usage_merge_counterexample :
    parse_sse_stream [mkMessageDelta (Json.obj [(kwOutputTokens, Json.num 5)])]
      = .ok ([], some ⟨none, none, none, some (Json.num 5)⟩)
    ∧ parse_sse_stream exDeltaStream = .ok ([], some ⟨none, none, none, some Json.null⟩)
    ∧ some Json.null ≠ some (Json.num 5) :=
  ⟨rfl, rfl, by intro h; injection h with h2; exact Json.noConfusion h2⟩

/-- C2 (amended): `message_start` with a truthy `message.usage` dict sets
`input_tokens` and both cache fields to that dict's values (null when a
key is absent) and leaves `output_tokens` untouched; `message_delta`
with a truthy `usage` dict sets `output_tokens` to `usage.output_tokens`
(null when the key is absent — not only when present) and leaves the
other fields untouched; an event whose usage value is falsy leaves the
whole usage state unchanged.  Merging is therefore not monotonic: a
later truthy usage lacking a field overwrites it with null. -/
theorem usage_merge_amended :
    (∀ (st : List Char × Option LfUsage) (kvs uk : List (List Char × Json)),
       (objGetD kvs kwType Json.null).eqStr kwMsgDelta = true →
       objGetD kvs kwUsage (Json.obj []) = Json.obj uk →
       (Json.obj uk).truthy = true →
       lfStep st (SSELine.jsonLine (Json.obj kvs)) =
         .ok (st.1, some ⟨(st.2.getD emptyUsage).input_tokens,
                          (st.2.getD emptyUsage).cache_creation_input_tokens,
                          (st.2.getD emptyUsage).cache_read_input_tokens,
                          some (objGetD uk kwOutputTokens Json.null)⟩))
    ∧ (∀ (st : List Char × Option LfUsage) (kvs : List (List Char × Json)) (u : Json),
       (objGetD kvs kwType Json.null).eqStr kwMsgDelta = true →
       objGetD kvs kwUsage (Json.obj []) = u →
       u.truthy = false →
       lfStep st (SSELine.jsonLine (Json.obj kvs)) = .ok st)
    ∧ (∀ (st : List Char × Option LfUsage) (kvs mk muk : List (List Char × Json)),
       (objGetD kvs kwType Json.null).eqStr kwMsgStart = true →
       objGetD kvs kwMessage (Json.obj []) = Json.obj mk →
       objGetD mk kwUsage (Json.obj []) = Json.obj muk →
       (Json.obj muk).truthy = true →
       lfStep st (SSELine.jsonLine (Json.obj kvs)) =
         .ok (st.1, some ⟨some (objGetD muk kwInputTokens Json.null),
                          some (objGetD muk kwCacheCreation Json.null),
                          some (objGetD muk kwCacheRead Json.null),
                          (st.2.getD emptyUsage).output_tokens⟩)) := by
  refine ⟨?_, ?_, ?_⟩
  · intro st kvs uk htype husage htr
    have hcbd : (objGetD kvs kwType Json.null).eqStr kwCbd = false :=
      eqStr_unique (by decide) htype
    simp only [lfStep, lfProcessObj, hcbd, Bool.false_eq_true, if_false, htype, if_true,
      husage, htr]
  · intro st kvs u htype husage htr
    have hcbd : (objGetD kvs kwType Json.null).eqStr kwCbd = false :=
      eqStr_unique (by decide) htype
    simp only [lfStep, lfProcessObj, hcbd, Bool.false_eq_true, if_false, htype, if_true,
      husage]
    cases u with
    | obj uk => simp [htr]
    | null => simp [htr]
    | bool b => simp [htr]
    | num n => simp [htr]
    | str s => simp [htr]
    | arr items => simp [htr]
  · intro st kvs mk muk htype hmsg hmu htr
    have hcbd : (objGetD kvs kwType Json.null).eqStr kwCbd = false :=
      eqStr_unique (by decide) htype
    have hmd : (objGetD kvs kwType Json.null).eqStr kwMsgDelta = false :=
      eqStr_unique (by decide) htype
    simp only [lfStep, lfProcessObj, hcbd, hmd, Bool.false_eq_true, if_false, htype,
      if_true, hmsg, hmu, htr]

/-- C2 witness: the amended theorem's `message_delta` clause applied at a
state with `output_tokens = 5` and a usage carrying `output_tokens = 7`. -/
theorem usage_merge_amended_witness :
    lfStep ("x".toList, some ⟨some (Json.num 10), none, none, some (Json.num 5)⟩)
      (SSELine.jsonLine (Json.obj [(kwType, Json.str kwMsgDelta),
        (kwUsage, Json.obj [(kwOutputTokens, Json.num 7)])]))
      = .ok ("x".toList, some ⟨some (Json.num 10), none, none, some (Json.num 7)⟩) :=
  usage_merge_amended.1 _ _ [(kwOutputTokens, Json.num 7)] rfl rfl rfl

theorem scribe_block_good {b : Json} (h : scribeGoodBlock b = true) :
    blockTextScribe b = .ok (scribeBlockContrib b) := by
  cases b with
  | obj bk =>
    simp only [scribeGoodBlock] at h
    simp only [blockTextScribe, scribeBlockContrib, claimBlockText]
    rw [objGetD_type_default bk kwType kwText (by decide)]
    by_cases ht : (objGetD bk kwType Json.null).eqStr kwText
    · simp only [ht, if_true]
      rw [objGetD_type_default bk kwType kwText (by decide)] at h
      simp only [ht, if_true] at h
      cases htx : objGetD bk kwText (Json.str []) with
      | str s => rfl
      | null => rw [htx] at h; simp at h
      | bool v => rw [htx] at h; simp at h
      | num n => rw [htx] at h; simp at h
      | arr items => rw [htx] at h; simp at h
      | obj entries => rw [htx] at h; simp at h
    · rw [Bool.not_eq_true] at ht
      simp [ht]
  | str s => rfl
  | null => rfl
  | bool v => rfl
  | num n => rfl
  | arr items => rfl

theorem join_blocks_scribe_good : ∀ (blocks : List Json) (acc : List Char),
    (∀ b ∈ blocks, scribeGoodBlock b = true) →
    joinBlocksScribe acc blocks = .ok (acc ++ scribeConcat blocks) := by
  intro blocks
  induction blocks with
  | nil =>
    intro acc _
    simp [joinBlocksScribe, scribeConcat]
  | cons b bs ih =>
    intro acc h
    have hb := scribe_block_good (h b (List.mem_cons_self b bs))
    simp only [joinBlocksScribe, hb]
    rw [ih (acc ++ scribeBlockContrib b) (fun x hx => h x (List.mem_cons_of_mem b hx))]
    simp [scribeConcat]

theorem lf_block_good {b : Json} (h : lfGoodBlock b = true) :
    lfBlockText b = .ok (claimBlockText b) := by
  cases b with
  | obj bk =>
    simp only [lfGoodBlock] at h
    simp only [lfBlockText, claimBlockText]
    by_cases ht : (objGetD bk kwType Json.null).eqStr kwText
    · simp only [ht, if_true] at h ⊢
      cases htx : objGetD bk kwText (Json.str []) with
      | str s => rfl
      | null => rw [htx] at h; simp at h
      | bool v => rw [htx] at h; simp at h
      | num n => rw [htx] at h; simp at h
      | arr items => rw [htx] at h; simp at h
      | obj entries => rw [htx] at h; simp at h
    · rw [Bool.not_eq_true] at ht
      simp [ht]
  | str s => simp [lfGoodBlock] at h
  | null => simp [lfGoodBlock] at h
  | bool v => simp [lfGoodBlock] at h
  | num n => simp [lfGoodBlock] at h
  | arr items => simp [lfGoodBlock] at h

theorem join_blocks_lf_good : ∀ (blocks : List Json) (acc : List Char),
    (∀ b ∈ blocks, lfGoodBlock b = true) →
    joinBlocksLf acc blocks = .ok (acc ++ claimConcat blocks) := by
  intro blocks
  induction blocks with
  | nil =>
    intro acc _
    simp [joinBlocksLf, claimConcat]
  | cons b bs ih =>
    intro acc h
    have hb := lf_block_good (h b (List.mem_cons_self b bs))
    simp only [joinBlocksLf, hb]
    rw [ih (acc ++ claimBlockText b) (fun x hx => h x (List.mem_cons_of_mem b hx))]
    simp [claimConcat]

theorem scribeGood_of_lfGood {b : Json} (h : lfGoodBlock b = true) :
    scribeGoodBlock b = true := by
  cases b with
  | obj bk =>
    simp only [lfGoodBlock] at h
    simp only [scribeGoodBlock]
    rw [objGetD_type_default bk kwType kwText (by decide)]
    exact h
  | str s => rfl
  | null => rfl
  | bool v => rfl
  | num n => rfl
  | arr items => rfl

theorem contrib_eq_of_lfGood {b : Json} (h : lfGoodBlock b = true) :
    scribeBlockContrib b = claimBlockText b := by
  cases b with
  | obj bk => rfl
  | str s => simp [lfGoodBlock] at h
  | null => rfl
  | bool v => rfl
  | num n => rfl
  | arr items => rfl

theorem scribeConcat_eq_of_lfGood {blocks : List Json}
    (h : ∀ b ∈ blocks, lfGoodBlock b = true) :
    scribeConcat blocks = claimConcat blocks := by
  unfold scribeConcat claimConcat
  congr 1
  exact List.map_congr_left (fun b hb => contrib_eq_of_lfGood (h b hb))

/-- C7 counterexample: a content array whose single block is the bare
string `"hi"` — not a `text`-typed block, so the claim says it is
skipped and extraction yields the empty string — actually contributes
itself: the source's `elif isinstance(block, str)` branch appends it. -/
theorem content_extract_counterexample :
    extract_text_from_content (Json.arr [Json.str "hi".toList]) = .ok "hi".toList
    ∧ claimConcat [Json.str "hi".toList] = []
    ∧ "hi".toList ≠ [] :=
  ⟨rfl, rfl, by decide⟩

/-- C7 (amended): on a content array in which every `text`-typed dict
block carries a string `text`, extraction concatenates, in order, the
texts of the `text`-typed dict blocks and the bare-string blocks, and
passes the concatenation through the noise filter once; dict blocks of
other types and non-dict non-string blocks are skipped without error
(so an array of only tool blocks extracts to the empty string).
Extraction does raise when a `text`-typed block's `text` is not a
string: the non-string value reaches `"".join`. -/
theorem content_extract_amended (blocks : List Json)
    (h : ∀ b ∈ blocks, scribeGoodBlock b = true) :
    extract_text_from_content (Json.arr blocks)
      = .ok (strip_noise_tags (scribeConcat blocks)) := by
  have hj := join_blocks_scribe_good blocks [] h
  simp only [extract_text_from_content, hj]
  simp

/-- C7 witness: the amended theorem applied at a text block plus a
tool_use block. -/
theorem content_extract_amended_witness :
    (∀ b ∈ exBlocks, scribeGoodBlock b = true)
    ∧ extract_text_from_content (Json.arr exBlocks)
        = .ok (strip_noise_tags (scribeConcat exBlocks)) :=
  ⟨by decide, content_extract_amended exBlocks (by decide)⟩

/-- C8 counterexample: on a non-streaming body whose only text block is
a noise span, the langfuse path returns the raw text with a top-level
usage read — the noise filter is never applied (the claim says the
assembled text is passed through NoiseFilter). -/
theorem nonstream_counterexample :
    lf_response_nonstream exNoiseBody
      = .ok ("<system-reminder>x</system-reminder>".toList,
             Json.obj [(kwOutputTokens, Json.num 5)])
    ∧ strip_noise_tags "<system-reminder>x</system-reminder>".toList = []
    ∧ "<system-reminder>x</system-reminder>".toList ≠ [] :=
  ⟨rfl, by decide, by decide⟩

/-- C8 (amended): both non-streaming paths parse the body as one JSON
document and walk its `content` array, but they split the claim's
behavior between them: the scribe path passes the concatenated text
through the noise filter and reads the document `id` (no usage field at
all), while the langfuse path concatenates the text blocks with no
noise filtering and reads usage from the top-level `usage` field when
present (defaulting to an empty dict). -/
theorem nonstream_reconstruction_amended (kvs : List (List Char × Json))
    (blocks : List Json)
    (hc : objGetD kvs kwContent (Json.arr []) = Json.arr blocks)
    (hb : ∀ b ∈ blocks, lfGoodBlock b = true) :
    scribe_response_nonstream (Json.obj kvs)
      = .ok (strip_noise_tags (claimConcat blocks), objGetD kvs kwId Json.null)
    ∧ lf_response_nonstream (Json.obj kvs)
      = .ok (claimConcat blocks, objGetD kvs kwUsage (Json.obj [])) := by
  constructor
  · have hj := join_blocks_scribe_good blocks []
      (fun b hm => scribeGood_of_lfGood (hb b hm))
    simp only [scribe_response_nonstream, hc, extract_text_from_content, hj]
    simp [scribeConcat_eq_of_lfGood hb]
  · have hj := join_blocks_lf_good blocks [] hb
    simp only [lf_response_nonstream, hc, hj]
    simp

/-- C8 witness: the amended theorem applied at a body with one text
block and a usage object. -/
theorem nonstream_reconstruction_amended_witness :
    (objGetD [(kwContent, Json.arr exBlocks), (kwUsage, Json.obj [(kwOutputTokens, Json.num 5)])]
        kwContent (Json.arr []) = Json.arr exBlocks
     ∧ ∀ b ∈ exBlocks, lfGoodBlock b = true)
    ∧ (scribe_response_nonstream
        (Json.obj [(kwContent, Json.arr exBlocks), (kwUsage, Json.obj [(kwOutputTokens, Json.num 5)])])
        = .ok (strip_noise_tags (claimConcat exBlocks), objGetD
            [(kwContent, Json.arr exBlocks), (kwUsage, Json.obj [(kwOutputTokens, Json.num 5)])]
            kwId Json.null)
       ∧ lf_response_nonstream
        (Json.obj [(kwContent, Json.arr exBlocks), (kwUsage, Json.obj [(kwOutputTokens, Json.num 5)])])
        = .ok (claimConcat exBlocks, objGetD
            [(kwContent, Json.arr exBlocks), (kwUsage, Json.obj [(kwOutputTokens, Json.num 5)])]
            kwUsage (Json.obj []))) :=
  ⟨⟨rfl, by decide⟩,
    nonstream_reconstruction_amended _ exBlocks rfl (by decide)⟩

theorem extract_ok_of_goodContent {c : Json} (h : goodContent c = true) :
    ∃ t, extract_text_from_content c = .ok t := by
  cases c with
  | str s => exact ⟨strip_noise_tags s, rfl⟩
  | arr blocks =>
    simp only [goodContent, List.all_eq_true] at h
    have hj := join_blocks_scribe_good blocks [] h
    refine ⟨strip_noise_tags (scribeConcat blocks), ?_⟩
    simp only [extract_text_from_content, hj]
    simp
  | null => exact ⟨[], rfl⟩
  | bool v => exact ⟨[], rfl⟩
  | num n => exact ⟨[], rfl⟩
  | obj entries => exact ⟨[], rfl⟩

theorem find_user_go_good : ∀ (l : List Json),
    (∀ m ∈ l, wellTypedMsg m = true) →
    scribeFindUserGo l = .ok (l.findSome? pickUser) := by
  intro l
  induction l with
  | nil =>
    intro _
    rfl
  | cons m rest ih =>
    intro h
    have hm := h m (List.mem_cons_self m rest)
    have hrest := ih (fun x hx => h x (List.mem_cons_of_mem m hx))
    rw [List.findSome?_cons]
    cases m with
    | obj mk =>
      simp only [wellTypedMsg] at hm
      simp only [scribeFindUserGo, pickUser]
      by_cases hrole : (objGetD mk kwRole Json.null).eqStr kwUser
      · simp only [hrole, if_true]
        by_cases hok : msgContentOK (objGetD mk kwContent (Json.str []))
        · simp only [hok, if_true]
          obtain ⟨t, ht⟩ := extract_ok_of_goodContent hm
          simp only [ht]
          by_cases hins : (!(pyStrip t).isEmpty && !is_system_noise (pyStrip t)) = true
          · simp [hins]
          · rw [Bool.not_eq_true] at hins
            simp [hins, hrest]
        · rw [Bool.not_eq_true] at hok
          simp only [hok, Bool.false_eq_true, if_false]
          exact hrest
      · rw [Bool.not_eq_true] at hrole
        simp only [hrole, Bool.false_eq_true, if_false]
        exact hrest
    | null => simp [wellTypedMsg] at hm
    | bool v => simp [wellTypedMsg] at hm
    | num n => simp [wellTypedMsg] at hm
    | str s => simp [wellTypedMsg] at hm
    | arr items => simp [wellTypedMsg] at hm

/-- C10 counterexample: the most recent user message is pure noise-tag
content (a plain string, so per the claim it is selected and, its
extracted text being empty, nothing is recorded) — but the loop
`continue`s past it and records the earlier real question instead. -/
theorem user_select_counterexample :
    scribe_request_user exMsgs = .ok (some "what is the weather".toList)
    ∧ claimSelectUser exMsgs = none :=
  ⟨rfl, rfl⟩

/-- C10 (amended): scanning the request's messages in reverse order, the
hook inserts the text of the first (most recent) message that passes
all of: role `user`; content a plain string or a list containing a
text-typed dict block; extracted, stripped text non-empty and not
system noise.  A message failing the emptiness/noise test is skipped in
favor of an earlier one, not selected-and-dropped.  At most one message
is inserted per request. -/
theorem user_select_amended (msgs : List Json)
    (h : ∀ m ∈ msgs, wellTypedMsg m = true) :
    scribe_request_user msgs = .ok (amendedSelectUser msgs) := by
  unfold scribe_request_user amendedSelectUser
  exact find_user_go_good msgs.reverse (fun m hm => h m (List.mem_reverse.mp hm))

/-- C10 witness: the amended theorem applied at the two-message example;
the selected text is the earlier real question. -/
theorem user_select_amended_witness :
    (∀ m ∈ exMsgs, wellTypedMsg m = true)
    ∧ scribe_request_user exMsgs = .ok (amendedSelectUser exMsgs) :=
  ⟨by decide, user_select_amended exMsgs (by decide)⟩
